import Mathlib

/-!
Verification of the kPAL k-mer profile library: a shallow embedding of the
core data model (`kpal/klib.py`) and the distance pipeline
(`k_mer/kdistlib.py`, `k_mer/metrics.py`), together with proofs about the
codec, the profile transforms and the distance computation.

Modelling conventions:
* numpy / Python integer counts are modelled as rationals (`ℚ`) for the
  distance pipeline (where scaling introduces fractions) and as `ℕ` for the
  pure counting driver; Python floats are modelled as exact rationals.
* Python's arbitrary-precision integers with bitwise operators are modelled
  as `ℤ` with floor division/remainder (for the positive divisor 4 the
  Euclidean `Int.ediv`/`Int.emod` coincide with Python's `>> 2` / `& 0x03`).
* mutation is modelled by explicit state passing; for the deep-copy claim a
  small heap model (addresses into a store of arrays) makes aliasing explicit.
-/

set_option maxRecDepth 2000

namespace KPal

/-! ### Codec (`kpal/klib.py`: `_nucleotide_to_binary`, `_binary_to_nucleotide`,
`dna_to_binary`, `binary_to_dna`, `reverse_complement`) -/

/-- `Profile._nucleotide_to_binary`: the dict
`{'A':0,'a':0,'C':1,'c':1,'G':2,'g':2,'T':3,'t':3}`; a lookup of any other
character raises `KeyError`, modelled by `none`. -/
def nucleotide_to_binary (c : Char) : Option ℕ :=
  if c = 'A' ∨ c = 'a' then some 0
  else if c = 'C' ∨ c = 'c' then some 1
  else if c = 'G' ∨ c = 'g' then some 2
  else if c = 'T' ∨ c = 't' then some 3
  else none

/-- `Profile._binary_to_nucleotide`: the dict `{0:'A',1:'C',2:'G',3:'T'}`.
It is only ever applied to `number & 0x03 < 4`, so the catch-all arm is
unreachable in the source. -/
def binary_to_nucleotide (n : ℕ) : Char :=
  match n with
  | 0 => 'A'
  | 1 => 'C'
  | 2 => 'G'
  | _ => 'T'

/-- Whether a character is one of the eight recognised nucleotide symbols. -/
def isNuc (c : Char) : Bool := (nucleotide_to_binary c).isSome

/-- The valid-symbol code of a character (0 for invalid characters; only used
on characters already known to be valid). -/
def nv (c : Char) : ℕ := (nucleotide_to_binary c).getD 0

/-- `Profile.dna_to_binary`: `result = 0`, then for each symbol
`result = (result << 2) | table[symbol]`; a `KeyError` aborts (`none`). -/
def dna_to_binary (s : List Char) : Option ℕ :=
  s.foldlM (fun result c =>
    (nucleotide_to_binary c).map (fun v => (result <<< 2) ||| v)) 0

/-- The loop body of `Profile.binary_to_dna`: extracts `length` 2-bit groups
least-significant first (`number & 0x03`, `number >>= 2`). -/
def b2dAux : ℕ → ℕ → List Char
  | 0, _ => []
  | k + 1, number => binary_to_nucleotide (number % 4) :: b2dAux k (number / 4)

/-- `Profile.binary_to_dna`: builds the string least-significant symbol first
and reverses it (`sequence[::-1]`). -/
def binary_to_dna (k : ℕ) (number : ℕ) : List Char :=
  (b2dAux k number).reverse

/-- The loop of `Profile.reverse_complement`:
`result = (result << 2) | (number & 0x03); number >>= 2`, `length` times.
For the positive divisor 4, Python's floor-based `& 0x03` and `>> 2` on
arbitrary-precision integers are `Int.emod · 4` and `Int.ediv · 4`. -/
def rcLoop : ℕ → ℤ → ℤ → ℤ
  | 0, _, result => result
  | i + 1, number, result =>
    rcLoop i (number / 4) (result * 4 + number % 4)

/-- `Profile.reverse_complement`: `number = ~number` (Python bitwise
complement of an arbitrary-precision integer, i.e. `-(number + 1)`) followed
by the repack loop. -/
def reverse_complement (k : ℕ) (number : ℤ) : ℤ :=
  rcLoop k (-(number + 1)) 0

/-- The reverse complement as an index function on `ℕ` (the source uses the
result of `reverse_complement` to index the counts array). -/
def rcIdx (k : ℕ) (i : ℕ) : ℕ := (reverse_complement k (i : ℤ)).toNat

/-- Mathematical form of the reverse complement on `k` base-4 digits:
complement each digit (`3 - d`) and reverse the digit order. -/
def rcNat : ℕ → ℕ → ℕ
  | 0, _ => 0
  | k + 1, q => (3 - q % 4) * 4 ^ k + rcNat k (q / 4)

theorem rcNat_lt (k q : ℕ) : rcNat k q < 4 ^ k := by
  induction k generalizing q with
  | zero => simp [rcNat]
  | succ k ih =>
    have h1 : q % 4 < 4 := Nat.mod_lt _ (by norm_num)
    have h2 : rcNat k (q / 4) < 4 ^ k := ih _
    have h3 : (3 - q % 4) * 4 ^ k ≤ 3 * 4 ^ k := by
      have : 3 - q % 4 ≤ 3 := by omega
      exact Nat.mul_le_mul_right _ this
    have : (3 - q % 4) * 4 ^ k + rcNat k (q / 4) < 3 * 4 ^ k + 4 ^ k := by omega
    calc rcNat (k + 1) q = (3 - q % 4) * 4 ^ k + rcNat k (q / 4) := rfl
      _ < 3 * 4 ^ k + 4 ^ k := this
      _ = 4 ^ (k + 1) := by ring

theorem rcLoop_spec (k : ℕ) : ∀ (q : ℕ) (r : ℤ),
    rcLoop k (-((q : ℤ) + 1)) r = r * 4 ^ k + rcNat k q := by
  induction k with
  | zero => intro q r; simp [rcLoop, rcNat]
  | succ k ih =>
    intro q r
    have hq4 : q % 4 < 4 := Nat.mod_lt _ (by norm_num)
    have hdm := Nat.div_add_mod q 4
    have key : (-((q : ℤ) + 1)) = ((3 - q % 4 : ℕ) : ℤ) + (-(((q / 4 : ℕ) : ℤ) + 1)) * 4 := by
      push_cast
      omega
    have hr0 : (0 : ℤ) ≤ ((3 - q % 4 : ℕ) : ℤ) := Int.natCast_nonneg _
    have hr4 : ((3 - q % 4 : ℕ) : ℤ) < 4 := by
      have : 3 - q % 4 < 4 := by omega
      exact_mod_cast this
    have hdiv : (-((q : ℤ) + 1)) / 4 = -(((q / 4 : ℕ) : ℤ) + 1) := by
      rw [key, Int.add_mul_ediv_right _ _ (by norm_num : (4 : ℤ) ≠ 0),
        Int.ediv_eq_zero_of_lt hr0 hr4]
      ring
    have hmod : (-((q : ℤ) + 1)) % 4 = ((3 - q % 4 : ℕ) : ℤ) := by
      rw [key, Int.add_mul_emod_self]
      exact Int.emod_eq_of_lt hr0 hr4
    show rcLoop k ((-((q : ℤ) + 1)) / 4)
        (r * 4 + (-((q : ℤ) + 1)) % 4) = r * 4 ^ (k + 1) + rcNat (k + 1) q
    rw [hdiv, hmod, ih (q / 4) (r * 4 + ((3 - q % 4 : ℕ) : ℤ))]
    show (r * 4 + ((3 - q % 4 : ℕ) : ℤ)) * 4 ^ k + rcNat k (q / 4) =
      r * 4 ^ (k + 1) + ((3 - q % 4) * 4 ^ k + rcNat k (q / 4) : ℕ)
    push_cast
    ring

theorem reverse_complement_eq_rcNat (k : ℕ) (q : ℕ) :
    reverse_complement k (q : ℤ) = (rcNat k q : ℤ) := by
  unfold reverse_complement
  rw [rcLoop_spec k q 0]
  simp

theorem rcIdx_eq_rcNat (k : ℕ) (i : ℕ) : rcIdx k i = rcNat k i := by
  unfold rcIdx
  rw [reverse_complement_eq_rcNat]
  exact Int.toNat_natCast _

theorem rcNat_split (k : ℕ) : ∀ (j a b : ℕ), a < 4 ^ j → b < 4 ^ k →
    rcNat (j + k) (a * 4 ^ k + b) = rcNat k b * 4 ^ j + rcNat j a := by
  induction k with
  | zero =>
    intro j a b _ hb
    interval_cases b
    simp [rcNat]
  | succ k ih =>
    intro j a b ha hb
    have hrw : a * 4 ^ (k + 1) + b = 4 * (a * 4 ^ k) + b := by ring
    have hmod : (a * 4 ^ (k + 1) + b) % 4 = b % 4 := by
      rw [hrw, Nat.mul_add_mod]
    have hdiv : (a * 4 ^ (k + 1) + b) / 4 = a * 4 ^ k + b / 4 := by
      rw [hrw, Nat.mul_add_div (by norm_num)]
    have hb4 : b / 4 < 4 ^ k := by
      rw [Nat.div_lt_iff_lt_mul (by norm_num)]
      calc b < 4 ^ (k + 1) := hb
        _ = 4 ^ k * 4 := by ring
    rw [Nat.add_succ]
    show (3 - (a * 4 ^ (k + 1) + b) % 4) * 4 ^ (j + k) +
        rcNat (j + k) ((a * 4 ^ (k + 1) + b) / 4) =
      rcNat (k + 1) b * 4 ^ j + rcNat j a
    rw [hmod, hdiv, ih j a (b / 4) ha hb4]
    show (3 - b % 4) * 4 ^ (j + k) + (rcNat k (b / 4) * 4 ^ j + rcNat j a) =
      ((3 - b % 4) * 4 ^ k + rcNat k (b / 4)) * 4 ^ j + rcNat j a
    rw [pow_add]
    ring

theorem rcNat_invol (k : ℕ) : ∀ q, q < 4 ^ k → rcNat k (rcNat k q) = q := by
  induction k with
  | zero =>
    intro q hq
    interval_cases q
    rfl
  | succ k ih =>
    intro q hq
    have hq4 : q % 4 < 4 := Nat.mod_lt _ (by norm_num)
    have hd : q / 4 < 4 ^ k := by
      rw [Nat.div_lt_iff_lt_mul (by norm_num)]
      calc q < 4 ^ (k + 1) := hq
        _ = 4 ^ k * 4 := by ring
    have ha : 3 - q % 4 < 4 ^ 1 := by omega
    have hb : rcNat k (q / 4) < 4 ^ k := rcNat_lt k _
    have hsplit := rcNat_split k 1 (3 - q % 4) (rcNat k (q / 4)) ha hb
    have h1k : 1 + k = k + 1 := Nat.add_comm 1 k
    rw [h1k] at hsplit
    show rcNat (k + 1) ((3 - q % 4) * 4 ^ k + rcNat k (q / 4)) = q
    rw [hsplit, ih _ hd]
    have hrc1 : rcNat 1 (3 - q % 4) = q % 4 := by
      show (3 - (3 - q % 4) % 4) * 4 ^ 0 + rcNat 0 ((3 - q % 4) / 4) = q % 4
      have h34 : (3 - q % 4) % 4 = 3 - q % 4 := Nat.mod_eq_of_lt (by omega)
      rw [h34]
      show (3 - (3 - q % 4)) * 1 + 0 = q % 4
      omega
    rw [hrc1]
    have := Nat.div_add_mod q 4
    omega

theorem rcIdx_lt (k i : ℕ) : rcIdx k i < 4 ^ k := by
  rw [rcIdx_eq_rcNat]; exact rcNat_lt k i

theorem rcIdx_invol (k : ℕ) (i : ℕ) (hi : i < 4 ^ k) : rcIdx k (rcIdx k i) = i := by
  rw [rcIdx_eq_rcNat, rcIdx_eq_rcNat]; exact rcNat_invol k i hi

/-! ### The Profile entity (`kpal/klib.py`, class `Profile`)

Counts are modelled as rationals: the counts arrays hold `int64` values,
which the scaling step of the distance pipeline multiplies by Python floats;
exact rational arithmetic covers both. The `Profile.__init__` invariant is
`counts.size == 4 ** length`; theorems that need it take it as a hypothesis. -/

structure Profile where
  length : ℕ
  counts : List ℚ
  name : Option String := none
deriving DecidableEq, Inhabited

/-- `Profile.number`: `len(self.counts)`. -/
def Profile.number (p : Profile) : ℕ := p.counts.length

/-- `Profile.total`: `self.counts.sum()`. -/
def Profile.total (p : Profile) : ℚ := p.counts.sum

/-- `Profile.copy`: `type(self)(self.counts.copy(), name=self.name)` — in the
pure model a value copy; the heap model below captures the deep-copy aspect. -/
def Profile.copy (p : Profile) : Profile := p

/-- One iteration of the `Profile.balance` loop at index `i`:
`i_rc = reverse_complement(i)`; if `i < i_rc` swap-accumulate via the `temp`
variable, if `i == i_rc` double the count. -/
def balanceStep (k : ℕ) (A : List ℚ) (i : ℕ) : List ℚ :=
  let r := rcIdx k i
  if i < r then
    let t := A.getD i 0
    let A1 := A.set i (t + A.getD r 0)
    A1.set r (A1.getD r 0 + t)
  else if i = r then A.set i (A.getD i 0 + A.getD i 0)
  else A

/-- `Profile.balance`: the loop `for i in range(self.number)`. -/
def balance (k : ℕ) (A : List ℚ) : List ℚ :=
  (List.range A.length).foldl (balanceStep k) A

/-- `Profile.balance` at the profile level. -/
def Profile.balance (p : Profile) : Profile :=
  { p with counts := KPal.balance p.length p.counts }

/-- Sums of consecutive chunks of size `m` (the generator
`sum(self.counts[i:i+merge_size]) for i in range(0, self.number, merge_size)`
in `Profile.shrink`; also the row sums of `np.reshape(area, (4, length//4))`
in `ProfileDistance._collapse`). The `m = 0` guard is unreachable in both
uses (`m` is a power of 4). -/
def chunkSums (m : ℕ) (l : List ℚ) : List ℚ :=
  if h : l = [] ∨ m = 0 then []
  else (l.take m).sum :: chunkSums m (l.drop m)
termination_by l.length
decreasing_by
  push_neg at h
  have h0 : l.length ≠ 0 := fun hl => h.1 (List.eq_nil_of_length_eq_zero hl)
  simp only [List.length_drop]
  omega

/-- `Profile.shrink(factor)`: raises `ValueError` unless
`length > factor`; otherwise replaces the counts by the chunk sums of size
`4 ** factor` and decrements `length` by `factor`. -/
def Profile.shrink (p : Profile) (factor : ℕ) : Except String Profile :=
  if p.length ≤ factor then
    Except.error "Reduction factor should be smaller than k-mer size."
  else
    Except.ok { p with
      counts := chunkSums (4 ^ factor) p.counts,
      length := p.length - factor }

/-! ### The counting driver (`Profile.from_fasta`)

The pure counting core operates on natural-number counts. -/

/-- `re.split` of a sequence on the character class `[^ACGTacgt]`: the
(possibly empty) runs of valid symbols, in order. -/
def splitRuns : List Char → List (List Char)
  | [] => [[]]
  | c :: rest =>
    if isNuc c then
      match splitRuns rest with
      | [] => [[c]]
      | r :: rs => (c :: r) :: rs
    else [] :: splitRuns rest

/-- `counts[binary] += 1`. -/
def incr (counts : List ℕ) (i : ℕ) : List ℕ :=
  counts.set i (counts.getD i 0 + 1)

/-- One step of the encoding loops of `Profile.from_fasta`:
`binary = (binary << 2) | _nucleotide_to_binary[i]`. -/
def encodeStep (b : ℕ) (c : Char) : ℕ := (b <<< 2) ||| nv c

/-- The two per-run loops of `Profile.from_fasta`: encode the first window
of length `k` directly and count it, then slide: for each further symbol
`binary = ((binary << 2) | code) & bitmask` with `bitmask = 4 ** k - 1`,
counting each window. Runs shorter than `k` are skipped. -/
def processRun (k : ℕ) (counts : List ℕ) (r : List Char) : List ℕ :=
  if k ≤ r.length then
    let b0 := (r.take k).foldl encodeStep 0
    let st := (r.drop k).foldl
      (fun p c =>
        let b := encodeStep p.1 c &&& (4 ^ k - 1)
        (b, incr p.2 b))
      (b0, incr counts b0)
    st.2
  else counts

/-- `Profile.from_fasta` (counts only): a zero vector of size `4 ** k`,
accumulating the runs of every record. -/
def from_fasta (k : ℕ) (records : List (List Char)) : List ℕ :=
  records.foldl
    (fun counts record => (splitRuns record).foldl (processRun k) counts)
    (List.replicate (4 ^ k) 0)

/-! ### Metrics (`kpal/metrics.py`) -/

/-- `metrics.positive(vector, mask)`:
`np.multiply(vector, np.asanyarray(mask, dtype=bool))`. -/
def positive (vector mask : List ℚ) : List ℚ :=
  vector.zipWith (fun x y => if y ≠ 0 then x else 0) mask

/-- `metrics.get_scale(left, right)`. -/
def get_scale (left right : List ℚ) : ℚ × ℚ :=
  let left_sum := left.sum
  let right_sum := right.sum
  if left_sum < right_sum then (right_sum / left_sum, 1)
  else (1, left_sum / right_sum)

/-- `metrics.scale_down(left, right)`. -/
def scale_down (left right : ℚ) : ℚ × ℚ :=
  let factor := max left right
  (left / factor, right / factor)

/-- `metrics.multiset(left, right, pairwise)`: the pairwise function summed
over the positions where either count is nonzero, divided by the number of
such positions plus one. -/
def multiset (left right : List ℚ) (pairwise : ℚ → ℚ → ℚ) : ℚ :=
  let nonzero := (List.range left.length).filter
    (fun i => decide (left.getD i 0 ≠ 0 ∨ right.getD i 0 ≠ 0))
  (nonzero.map (fun i => pairwise (left.getD i 0) (right.getD i 0))).sum /
    (nonzero.length + 1)

/-- `metrics.pairwise["prod"]`: `abs(x - y) / ((x + 1) * (y + 1))`. -/
def pairwise_prod (x y : ℚ) : ℚ := |x - y| / ((x + 1) * (y + 1))

/-- `metrics.summary["min"]` (`np.min`): minimum of a nonempty vector (the
`[]` arm is unreachable; `np.min` raises on an empty array). -/
def summary_min (l : List ℚ) : ℚ :=
  match l with
  | [] => 0
  | x :: xs => xs.foldl min x

/-! ### The Distance Engine (`k_mer/kdistlib.py`, class `ProfileDistance`) -/

/-- `ProfileDistance._collapse(vector, start, length)`:
`np.reshape(vector[start:start+length], (4, length // 4)).sum(axis=1)`,
i.e. the four sums of the consecutive quarters of the area. -/
def collapse (vector : List ℚ) (start length : ℕ) : List ℚ :=
  chunkSums (length / 4) ((vector.drop start).take length)

/-- `counts[start] = total; counts[start+1:start+length] = 0`. -/
def writeCollapse (v : List ℚ) (start length : ℕ) (total : ℚ) : List ℚ :=
  v.take start ++ total :: List.replicate (length - 1) 0 ++ v.drop (start + length)

/-- `ProfileDistance._dynamic_smooth(left, right, start, length)`.
The recursion is indexed by `k` with `length = 4 ** k` (the entry point
passes `left.number`, which is `4 ** length` under the `Profile` invariant,
and every recursive call divides the span by 4), so `k = 0` is the
`length == 1` base case. -/
def dynamicSmoothAux (summary : List ℚ → ℚ) (threshold : ℚ) :
    ℕ → ℕ → List ℚ × List ℚ → List ℚ × List ℚ
  | 0, _, lr => lr
  | k + 1, start, (l, r) =>
    let left_c := collapse l start (4 ^ (k + 1))
    let right_c := collapse r start (4 ^ (k + 1))
    if min (summary left_c) (summary right_c) ≤ threshold then
      (writeCollapse l start (4 ^ (k + 1)) left_c.sum,
       writeCollapse r start (4 ^ (k + 1)) right_c.sum)
    else
      let s0 := dynamicSmoothAux summary threshold k start (l, r)
      let s1 := dynamicSmoothAux summary threshold k (start + 4 ^ k) s0
      let s2 := dynamicSmoothAux summary threshold k (start + 2 * 4 ^ k) s1
      dynamicSmoothAux summary threshold k (start + 3 * 4 ^ k) s2

/-- `ProfileDistance.dynamic_smooth(left, right)`: the recursion entered at
`start=0` over the whole array. -/
def dynamic_smooth (summary : List ℚ → ℚ) (threshold : ℚ)
    (left right : Profile) : Profile × Profile :=
  let p := dynamicSmoothAux summary threshold left.length 0 (left.counts, right.counts)
  ({ left with counts := p.1 }, { right with counts := p.2 })

/-- The constructor arguments of `ProfileDistance.__init__`, with the
source's default values. -/
structure ProfileDistanceConfig where
  do_balance : Bool := false
  do_positive : Bool := false
  do_smooth : Bool := false
  summary : List ℚ → ℚ := summary_min
  threshold : ℚ := 0
  do_scale : Bool := false
  down : Bool := false
  distance_function : Option (List ℚ → List ℚ → ℚ) := none
  pairwise : ℚ → ℚ → ℚ := pairwise_prod

/-- `ProfileDistance()` with all defaults. -/
def defaultConfig : ProfileDistanceConfig := {}

/-- `ProfileDistance.distance(left, right)`: copies both profiles, then
balance → positive filter → dynamic smoothing → scaling → final distance.
The second `positive` call uses the already-masked left counts, as in the
source. -/
def distance (cfg : ProfileDistanceConfig) (left right : Profile) : ℚ :=
  let lb := if cfg.do_balance then balance left.length left.counts else left.counts
  let rb := if cfg.do_balance then balance right.length right.counts else right.counts
  let lp := if cfg.do_positive then positive lb rb else lb
  let rp := if cfg.do_positive then positive rb lp else rb
  let sm :=
    if cfg.do_smooth then
      dynamicSmoothAux cfg.summary cfg.threshold left.length 0 (lp, rp)
    else (lp, rp)
  let scaled :=
    if cfg.do_scale then
      let sc := get_scale sm.1 sm.2
      let sc2 := if cfg.down then scale_down sc.1 sc.2 else sc
      (sm.1.map (· * sc2.1), sm.2.map (· * sc2.2))
    else sm
  match cfg.distance_function with
  | none => multiset scaled.1 scaled.2 cfg.pairwise
  | some f => f scaled.1 scaled.2

/-! ### Merge and the CLI-level validation (`Profile.merge`, `kmer.py`) -/

/-- Elementwise numpy addition with numpy's broadcasting rule for
one-dimensional arrays: equal sizes add elementwise, a size-1 array is
broadcast against any size, anything else raises `ValueError`. -/
def npBroadcastAdd (x y : List ℚ) : Except String (List ℚ) :=
  if x.length = y.length then Except.ok (x.zipWith (· + ·) y)
  else if x.length = 1 then Except.ok (y.map (fun b => x.headD 0 + b))
  else if y.length = 1 then Except.ok (x.map (fun a => a + y.headD 0))
  else Except.error "operands could not be broadcast together"

/-- `Profile.merge(profile)` with the default merger
`metrics.mergers["sum"] = lambda x, y: x + y`:
`self.counts = merger(self.counts, profile.counts)`. The method performs no
length check of its own. -/
def Profile.merge (p other : Profile) : Except String Profile :=
  (npBroadcastAdd p.counts other.counts).map (fun c => { p with counts := c })

/-- `kmer.py`'s `LENGTH_ERROR` message. -/
def LENGTH_ERROR : String := "k-mer lengths of the files differ"

/-- The CLI-layer guard used by `kmer.py` before invoking core operations
on a pair of profiles: `if left.length != right.length: raise
ValueError(LENGTH_ERROR)`. -/
def cliLengthCheck (left right : Profile) : Except String Unit :=
  if left.length ≠ right.length then Except.error LENGTH_ERROR else Except.ok ()

/-- The CLI-layer guard of `kmer.py`'s `matrix` subcommand:
`if len(names) < 2: raise ValueError('you must give at least two k-mer
profiles')`. -/
def cliMatrixPrecheck (names : List String) : Except String Unit :=
  if names.length < 2 then
    Except.error "you must give at least two k-mer profiles"
  else Except.ok ()

/-! ### The Matrix Builder (`kdistlib.distance_matrix`) -/

/-- Left-pad a string with zeros to width `w`. -/
def padZeros (s : String) (w : ℕ) : String :=
  String.mk (List.replicate (w - s.length) '0') ++ s

/-- Python fixed-point formatting of a float to
`precision` decimal digits (round half to even), with the float value
modelled as an exact rational. -/
def formatFixed (precision : ℕ) (x : ℚ) : String :=
  let scaled : ℚ := x * (10 : ℚ) ^ precision
  let fl : ℤ := Rat.floor scaled
  let frac : ℚ := scaled - fl
  let n : ℤ :=
    if frac < 1 / 2 then fl
    else if 1 / 2 < frac then fl + 1
    else if fl % 2 = 0 then fl else fl + 1
  let sign := if n < 0 then "-" else ""
  let a := n.natAbs
  if precision = 0 then sign ++ toString a
  else
    sign ++ toString (a / 10 ^ precision) ++ "." ++
      padZeros (toString (a % 10 ^ precision)) precision

/-- `kdistlib.distance_matrix(profiles, output, precision, dist)`, with the
output file handle modelled as the list of written chunks (each `print`
writes its argument followed by a newline; each `output.write` writes its
argument). `print(i.name)` renders a missing name as Python renders `None`. -/
def distance_matrix (profiles : List Profile) (precision : ℕ)
    (cfg : ProfileDistanceConfig) : List String :=
  let input_count := profiles.length
  [toString input_count ++ "\n"] ++
    profiles.map (fun p => p.name.getD "None" ++ "\n") ++
    (List.range' 1 (input_count - 1)).flatMap (fun i =>
      (List.range i).flatMap (fun j =>
        (if j ≠ 0 then [" "] else []) ++
          [formatFixed precision
            (distance cfg (profiles.getD i default) (profiles.getD j default))]) ++
      ["\n"])

/-! ### Heap model of `ProfileDistance.distance` (for the deep-copy
contract)

Python `Profile` objects hold a reference to a numpy array; `copy()`
allocates a fresh array (`self.counts.copy()`). Addresses index into a
store of arrays; allocation appends. -/

/-- The store of counts arrays. -/
abbrev Heap := List (List ℚ)

/-- A `Profile` object whose counts field is a reference into the heap. -/
structure ProfileRef where
  length : ℕ
  countsAddr : ℕ
  name : Option String := none
deriving DecidableEq, Inhabited

/-- Read an array from the heap. -/
def heapGet (h : Heap) (a : ℕ) : List ℚ := h.getD a []

/-- Overwrite an array on the heap (in-place mutation of the object's
counts, or rebinding `obj.counts` to the freshly computed array). -/
def heapSet (h : Heap) (a : ℕ) (v : List ℚ) : Heap := h.set a v

/-- `Profile.copy()`: allocate a fresh array holding the same values; the
new object points at the fresh address. -/
def copyRef (h : Heap) (p : ProfileRef) : Heap × ProfileRef :=
  (h ++ [heapGet h p.countsAddr], { p with countsAddr := h.length })

/-- Pipeline step 2 on the heap: `if self._do_balance: left.balance();
right.balance()`. -/
def stepBalance (cfg : ProfileDistanceConfig) (left right : ProfileRef) (h : Heap) : Heap :=
  if cfg.do_balance then
    let hb := heapSet h left.countsAddr (balance left.length (heapGet h left.countsAddr))
    heapSet hb right.countsAddr (balance right.length (heapGet hb right.countsAddr))
  else h

/-- Pipeline step 3 on the heap: the positivity masking (the second call
reads the already-masked left counts, as in the source). -/
def stepPositive (cfg : ProfileDistanceConfig) (left right : ProfileRef) (h : Heap) : Heap :=
  if cfg.do_positive then
    let hp := heapSet h left.countsAddr
      (positive (heapGet h left.countsAddr) (heapGet h right.countsAddr))
    heapSet hp right.countsAddr
      (positive (heapGet hp right.countsAddr) (heapGet hp left.countsAddr))
  else h

/-- Pipeline step 4 on the heap: joint dynamic smoothing of both copies. -/
def stepSmooth (cfg : ProfileDistanceConfig) (left right : ProfileRef) (h : Heap) : Heap :=
  if cfg.do_smooth then
    let p := dynamicSmoothAux cfg.summary cfg.threshold left.length 0
      (heapGet h left.countsAddr, heapGet h right.countsAddr)
    heapSet (heapSet h left.countsAddr p.1) right.countsAddr p.2
  else h

/-- Pipeline step 5 on the heap: scaling. -/
def stepScale (cfg : ProfileDistanceConfig) (left right : ProfileRef) (h : Heap) : Heap :=
  if cfg.do_scale then
    let sc := get_scale (heapGet h left.countsAddr) (heapGet h right.countsAddr)
    let sc2 := if cfg.down then scale_down sc.1 sc.2 else sc
    heapSet (heapSet h left.countsAddr ((heapGet h left.countsAddr).map (· * sc2.1)))
      right.countsAddr ((heapGet h right.countsAddr).map (· * sc2.2))
  else h

/-- `ProfileDistance.distance(left, right)` on the heap: `left = left.copy();
right = right.copy()`, then the pipeline steps, each reading and writing the
copies' arrays only. Returns the final heap and the scalar distance. -/
def distanceHeap (cfg : ProfileDistanceConfig) (h : Heap)
    (pl pr : ProfileRef) : Heap × ℚ :=
  let c1 := copyRef h pl
  let c2 := copyRef c1.1 pr
  let left := c1.2
  let right := c2.2
  let h6 := stepScale cfg left right
    (stepSmooth cfg left right
      (stepPositive cfg left right
        (stepBalance cfg left right c2.1)))
  let result :=
    match cfg.distance_function with
    | none => multiset (heapGet h6 left.countsAddr) (heapGet h6 right.countsAddr) cfg.pairwise
    | some f => f (heapGet h6 left.countsAddr) (heapGet h6 right.countsAddr)
  (h6, result)

/-! ### General helper lemmas -/

theorem getD_set_self {α} (A : List α) (i : ℕ) (x d : α) (h : i < A.length) :
    (A.set i x).getD i d = x := by
  simp [List.getD_eq_getElem?_getD, List.getElem?_set_self h]

theorem getD_set_ne {α} (A : List α) {i j : ℕ} (x d : α) (h : i ≠ j) :
    (A.set i x).getD j d = A.getD j d := by
  simp [List.getD_eq_getElem?_getD, List.getElem?_set_ne h]

theorem sum_eq_range_getD (l : List ℚ) :
    l.sum = ∑ i ∈ Finset.range l.length, l.getD i 0 := by
  induction l with
  | nil => simp
  | cons x tl ih =>
    rw [List.sum_cons, List.length_cons, Finset.sum_range_succ', ih]
    simp [List.getD_cons_succ, List.getD_cons_zero, add_comm]

/-! ### C5: codec round trip -/

theorem n2b_valid : ∀ v : ℕ, v < 4 → nucleotide_to_binary (binary_to_nucleotide v) = some v := by
  decide

theorem shiftOr_eq (b v : ℕ) (hv : v < 4) : (b <<< 2) ||| v = 4 * b + v := by
  rw [Nat.shiftLeft_eq]
  have hv2 : v < 2 ^ 2 := by norm_num at hv ⊢; omega
  calc b * 2 ^ 2 ||| v = 2 ^ 2 * b ||| v := by rw [Nat.mul_comm]
    _ = 2 ^ 2 * b + v := (Nat.mul_add_lt_is_or hv2 b).symm
    _ = 4 * b + v := by norm_num

theorem mod_four_pow_succ (n k : ℕ) : n % 4 ^ (k + 1) = 4 * (n / 4 % 4 ^ k) + n % 4 := by
  have hlt : 4 * (n / 4 % 4 ^ k) + n % 4 < 4 ^ (k + 1) := by
    have h1 : n / 4 % 4 ^ k < 4 ^ k := Nat.mod_lt _ (Nat.pos_pow_of_pos k (by norm_num))
    have h2 : n % 4 < 4 := Nat.mod_lt _ (by norm_num)
    have h3 : (4 : ℕ) ^ (k + 1) = 4 * 4 ^ k := by ring
    omega
  have hdecomp : n = 4 ^ (k + 1) * (n / 4 / 4 ^ k) + (4 * (n / 4 % 4 ^ k) + n % 4) := by
    calc n = 4 * (n / 4) + n % 4 := (Nat.div_add_mod n 4).symm
      _ = 4 * (4 ^ k * (n / 4 / 4 ^ k) + n / 4 % 4 ^ k) + n % 4 := by
          rw [Nat.div_add_mod (n / 4) (4 ^ k)]
      _ = 4 ^ (k + 1) * (n / 4 / 4 ^ k) + (4 * (n / 4 % 4 ^ k) + n % 4) := by ring
  conv_lhs => rw [hdecomp]
  rw [Nat.mul_add_mod, Nat.mod_eq_of_lt hlt]

theorem dna_to_binary_b2d (k : ℕ) : ∀ n : ℕ,
    dna_to_binary (binary_to_dna k n) = some (n % 4 ^ k) := by
  induction k with
  | zero =>
    intro n
    simp [binary_to_dna, b2dAux, dna_to_binary, Nat.mod_one]
  | succ k ih =>
    intro n
    have hv : n % 4 < 4 := Nat.mod_lt _ (by norm_num)
    have hstep : binary_to_dna (k + 1) n =
        binary_to_dna k (n / 4) ++ [binary_to_nucleotide (n % 4)] := by
      show (b2dAux (k + 1) n).reverse = _
      rw [b2dAux, List.reverse_cons]
      rfl
    rw [hstep]
    unfold dna_to_binary at ih ⊢
    rw [List.foldlM_append, ih (n / 4)]
    simp [n2b_valid _ hv, shiftOr_eq _ _ hv, mod_four_pow_succ]

/-- C5: for every `k` and every index `i < 4^k`, encoding the decoded
`k`-mer string returns the original index:
`dna_to_binary(binary_to_dna(i)) == i`. -/
theorem C5_codec_round_trip (k i : ℕ) (hi : i < 4 ^ k) :
    dna_to_binary (binary_to_dna k i) = some i := by
  rw [dna_to_binary_b2d, Nat.mod_eq_of_lt hi]

/-- Witness for C5 at `k = 3`, `i = 57`. -/
theorem C5_codec_round_trip_witness :
    57 < 4 ^ 3 ∧ dna_to_binary (binary_to_dna 3 57) = some 57 :=
  ⟨by norm_num, C5_codec_round_trip 3 57 (by norm_num)⟩

/-! ### C8: shrink -/

theorem chunkSums_nil (m : ℕ) : chunkSums m [] = [] := by
  rw [chunkSums]
  simp

theorem chunkSums_cons (m : ℕ) (l : List ℚ) (hl : l ≠ []) (hm : m ≠ 0) :
    chunkSums m l = (l.take m).sum :: chunkSums m (l.drop m) := by
  rw [chunkSums, dif_neg (by simp [hl, hm])]

theorem chunkSums_cons_succ (m : ℕ) (x : ℚ) (l : List ℚ) :
    chunkSums (m + 1) (x :: l) =
      ((x :: l).take (m + 1)).sum :: chunkSums (m + 1) ((x :: l).drop (m + 1)) :=
  chunkSums_cons (m + 1) (x :: l) (by simp) (by omega)

theorem chunkSums_sum (m : ℕ) (hm : m ≠ 0) :
    ∀ (n : ℕ) (l : List ℚ), l.length ≤ n → (chunkSums m l).sum = l.sum := by
  intro n
  induction n with
  | zero =>
    intro l hl
    have : l = [] := List.eq_nil_of_length_eq_zero (Nat.le_zero.mp hl)
    subst this
    rw [chunkSums]
    simp
  | succ n ih =>
    intro l hl
    rw [chunkSums]
    by_cases hnil : l = [] ∨ m = 0
    · rcases hnil with h1 | h1
      · subst h1; simp
      · exact absurd h1 hm
    · rw [dif_neg hnil]
      push_neg at hnil
      have hlen : (l.drop m).length ≤ n := by
        have h0 : l.length ≠ 0 := fun h0 => hnil.1 (List.eq_nil_of_length_eq_zero h0)
        simp only [List.length_drop]
        omega
      rw [List.sum_cons, ih (l.drop m) hlen]
      calc (l.take m).sum + (l.drop m).sum = (l.take m ++ l.drop m).sum := (List.sum_append).symm
        _ = l.sum := by rw [List.take_append_drop]

theorem chunkSums_length (m : ℕ) (hm : m ≠ 0) :
    ∀ (n : ℕ) (l : List ℚ), l.length ≤ n → m ∣ l.length →
      (chunkSums m l).length = l.length / m := by
  intro n
  induction n with
  | zero =>
    intro l hl _
    have : l = [] := List.eq_nil_of_length_eq_zero (Nat.le_zero.mp hl)
    subst this
    rw [chunkSums]
    simp
  | succ n ih =>
    intro l hl hdvd
    rw [chunkSums]
    by_cases hnil : l = [] ∨ m = 0
    · rcases hnil with h1 | h1
      · subst h1; simp
      · exact absurd h1 hm
    · rw [dif_neg hnil]
      push_neg at hnil
      have h0 : l.length ≠ 0 := fun h0 => hnil.1 (List.eq_nil_of_length_eq_zero h0)
      obtain ⟨t, ht⟩ := hdvd
      have ht1 : 1 ≤ t := by
        rcases Nat.eq_zero_or_pos t with h | h
        · subst h; omega
        · exact h
      have hml : m ≤ l.length := by
        calc m = m * 1 := (Nat.mul_one m).symm
          _ ≤ m * t := Nat.mul_le_mul_left m ht1
          _ = l.length := ht.symm
      obtain ⟨u, rfl⟩ : ∃ u, t = u + 1 := ⟨t - 1, by omega⟩
      have hdl : (l.drop m).length = m * (u + 1 - 1) := by
        simp only [List.length_drop, ht, Nat.add_sub_cancel, Nat.mul_succ]
      have hlen : (l.drop m).length ≤ n := by
        simp only [List.length_drop]
        omega
      rw [List.length_cons, ih (l.drop m) hlen ⟨u + 1 - 1, hdl⟩, hdl, ht,
        Nat.mul_div_cancel_left _ (Nat.pos_of_ne_zero hm),
        Nat.mul_div_cancel_left _ (Nat.pos_of_ne_zero hm)]
      omega

/-- C8: `shrink(factor)` fails with `ValueError` exactly when
`factor ≥ length`; on success the counts sum is conserved, the new counts
array has size `4^(length - factor)` and `length` drops by `factor`. -/
theorem C8_shrink_spec (p : Profile) (factor : ℕ)
    (hinv : p.counts.length = 4 ^ p.length) :
    ((∃ e, p.shrink factor = Except.error e) ↔ p.length ≤ factor) ∧
    (p.length ≤ factor →
      p.shrink factor =
        Except.error "Reduction factor should be smaller than k-mer size.") ∧
    (factor < p.length → ∃ q, p.shrink factor = Except.ok q ∧
      q.counts.sum = p.counts.sum ∧
      q.counts.length = 4 ^ (p.length - factor) ∧
      q.length = p.length - factor) := by
  by_cases h : p.length ≤ factor
  · refine ⟨⟨fun _ => h, fun _ => ?_⟩, fun _ => ?_, fun hlt => absurd hlt (by omega)⟩
    · exact ⟨_, by rw [Profile.shrink, if_pos h]⟩
    · rw [Profile.shrink, if_pos h]
  · have hfl : factor < p.length := by omega
    have hm : (4 : ℕ) ^ factor ≠ 0 := by positivity
    have hdvd : (4 : ℕ) ^ factor ∣ p.counts.length := by
      rw [hinv]; exact pow_dvd_pow 4 (le_of_lt hfl)
    refine ⟨⟨fun ⟨e, he⟩ => ?_, fun hle => absurd hle h⟩, fun hle => absurd hle h,
      fun _ => ⟨_, by rw [Profile.shrink, if_neg h], ?_, ?_, rfl⟩⟩
    · rw [Profile.shrink, if_neg h] at he
      exact absurd he (by simp)
    · exact chunkSums_sum _ hm p.counts.length p.counts le_rfl
    · rw [chunkSums_length _ hm p.counts.length p.counts le_rfl hdvd, hinv,
        Nat.pow_div (le_of_lt hfl) (by norm_num)]

/-- Witness for C8: a `k = 1` profile rejects `factor = 1`, and a `k = 2`
profile is shrunk by `factor = 1` conserving the total. -/
theorem C8_shrink_spec_witness :
    (⟨1, [1, 2, 3, 4], none⟩ : Profile).counts.length = 4 ^ 1 ∧
    Profile.shrink ⟨1, [1, 2, 3, 4], none⟩ 1 =
      Except.error "Reduction factor should be smaller than k-mer size." ∧
    Profile.shrink ⟨2, [1, 1, 1, 1, 2, 2, 2, 2, 0, 0, 0, 0, 3, 3, 3, 3], none⟩ 1 =
      Except.ok ⟨1, [4, 8, 0, 12], none⟩ :=
  ⟨by norm_num, (C8_shrink_spec ⟨1, [1, 2, 3, 4], none⟩ 1 (by norm_num)).2.1 (by norm_num),
    by
      obtain ⟨q, hq, -, -, -⟩ :=
        (C8_shrink_spec ⟨2, [1, 1, 1, 1, 2, 2, 2, 2, 0, 0, 0, 0, 3, 3, 3, 3], none⟩ 1
          (by norm_num)).2.2 (by norm_num)
      rw [hq]
      rw [Profile.shrink, if_neg (by norm_num)] at hq
      have : q = ⟨1, chunkSums (4 ^ 1) [1, 1, 1, 1, 2, 2, 2, 2, 0, 0, 0, 0, 3, 3, 3, 3], none⟩ := by
        injection hq with h1
        exact h1.symm
      subst this
      show Except.ok _ = _
      rw [chunkSums_cons _ _ (by simp) (by norm_num)]
      norm_num
      rw [chunkSums_cons _ _ (by simp) (by norm_num)]
      norm_num
      rw [chunkSums_cons _ _ (by simp) (by norm_num)]
      norm_num
      rw [chunkSums_cons _ _ (by simp) (by norm_num)]
      norm_num [chunkSums_nil]⟩

/-! ### C2 and C1: the literal `k = 2` worked example

`test_ProfileDistance_dynamic_smooth` / `test_ProfileDistance_distance` in
`tests/test_kdistlib.py` and §8.6 of the spec: profile A counts 1 for the
2-mers `{AC,AG,AT,CA,CC,CG,CT,GA,GC,GG,GT,TA,TG,TT}` (so AA and TC are 0),
profile B counts 1 for `{AC,AT,CA,CC,CG,CT,GA,GC,GG,GT,TA,TC,TG,TT}`
(so AA and AG are 0). -/

def exA : List ℚ := [0, 1, 1, 1, 1, 1, 1, 1, 1, 1, 1, 1, 1, 0, 1, 1]

def exB : List ℚ := [0, 1, 0, 1, 1, 1, 1, 1, 1, 1, 1, 1, 1, 1, 1, 1]

/-- Profile A as claim C1 describes it (count 1 for every 2-mer except AA):
the claim's description omits that TC is also 0 in the test fixture. -/
def exA_claim : List ℚ := [0, 1, 1, 1, 1, 1, 1, 1, 1, 1, 1, 1, 1, 1, 1, 1]

def mdA : List ℚ := [3, 0, 0, 0, 1, 1, 1, 1, 1, 1, 1, 1, 1, 0, 1, 1]

def mdB : List ℚ := [2, 0, 0, 0, 1, 1, 1, 1, 1, 1, 1, 1, 1, 1, 1, 1]

def smA : List ℚ := [3, 0, 0, 0, 1, 1, 1, 1, 1, 1, 1, 1, 3, 0, 0, 0]

def smB : List ℚ := [2, 0, 0, 0, 1, 1, 1, 1, 1, 1, 1, 1, 4, 0, 0, 0]

def cmA : List ℚ := [3, 0, 0, 0, 1, 1, 1, 1, 1, 1, 1, 1, 1, 1, 1, 1]

theorem smoothAB_q0 : dynamicSmoothAux summary_min 0 1 0 (exA, exB) = (mdA, mdB) := by
  rw [dynamicSmoothAux]
  simp only []
  rw [if_pos (by norm_num [collapse, exA, exB, chunkSums_cons_succ, chunkSums_nil, summary_min])]
  norm_num [collapse, exA, exB, mdA, mdB, chunkSums_cons_succ, chunkSums_nil, writeCollapse,
    List.replicate_succ]

theorem smoothAB_q4 : dynamicSmoothAux summary_min 0 1 4 (mdA, mdB) = (mdA, mdB) := by
  rw [dynamicSmoothAux]
  simp only []
  rw [if_neg (by norm_num [collapse, mdA, mdB, chunkSums_cons_succ, chunkSums_nil, summary_min])]
  simp only [dynamicSmoothAux]

theorem smoothAB_q8 : dynamicSmoothAux summary_min 0 1 8 (mdA, mdB) = (mdA, mdB) := by
  rw [dynamicSmoothAux]
  simp only []
  rw [if_neg (by norm_num [collapse, mdA, mdB, chunkSums_cons_succ, chunkSums_nil, summary_min])]
  simp only [dynamicSmoothAux]

theorem smoothAB_q12 : dynamicSmoothAux summary_min 0 1 12 (mdA, mdB) = (smA, smB) := by
  rw [dynamicSmoothAux]
  simp only []
  rw [if_pos (by norm_num [collapse, mdA, mdB, chunkSums_cons_succ, chunkSums_nil, summary_min])]
  norm_num [collapse, mdA, mdB, smA, smB, chunkSums_cons_succ, chunkSums_nil, writeCollapse,
    List.replicate_succ]

theorem smoothAB : dynamicSmoothAux summary_min 0 2 0 (exA, exB) = (smA, smB) := by
  rw [dynamicSmoothAux]
  simp only []
  rw [if_neg (by norm_num [collapse, exA, exB, chunkSums_cons_succ, chunkSums_nil, summary_min])]
  norm_num only
  rw [smoothAB_q0, smoothAB_q4, smoothAB_q8, smoothAB_q12]

theorem smoothClaim_q0 :
    dynamicSmoothAux summary_min 0 1 0 (exA_claim, exB) = (cmA, mdB) := by
  rw [dynamicSmoothAux]
  simp only []
  rw [if_pos (by norm_num [collapse, exA_claim, exB, chunkSums_cons_succ, chunkSums_nil,
    summary_min])]
  norm_num [collapse, exA_claim, exB, cmA, mdB, chunkSums_cons_succ, chunkSums_nil, writeCollapse,
    List.replicate_succ]

theorem smoothClaim_q4 : dynamicSmoothAux summary_min 0 1 4 (cmA, mdB) = (cmA, mdB) := by
  rw [dynamicSmoothAux]
  simp only []
  rw [if_neg (by norm_num [collapse, cmA, mdB, chunkSums_cons_succ, chunkSums_nil, summary_min])]
  simp only [dynamicSmoothAux]

theorem smoothClaim_q8 : dynamicSmoothAux summary_min 0 1 8 (cmA, mdB) = (cmA, mdB) := by
  rw [dynamicSmoothAux]
  simp only []
  rw [if_neg (by norm_num [collapse, cmA, mdB, chunkSums_cons_succ, chunkSums_nil, summary_min])]
  simp only [dynamicSmoothAux]

theorem smoothClaim_q12 : dynamicSmoothAux summary_min 0 1 12 (cmA, mdB) = (cmA, mdB) := by
  rw [dynamicSmoothAux]
  simp only []
  rw [if_neg (by norm_num [collapse, cmA, mdB, chunkSums_cons_succ, chunkSums_nil, summary_min])]
  simp only [dynamicSmoothAux]

theorem smoothClaim : dynamicSmoothAux summary_min 0 2 0 (exA_claim, exB) = (cmA, mdB) := by
  rw [dynamicSmoothAux]
  simp only []
  rw [if_neg (by norm_num [collapse, exA_claim, exB, chunkSums_cons_succ, chunkSums_nil,
    summary_min])]
  norm_num only
  rw [smoothClaim_q0, smoothClaim_q4, smoothClaim_q8, smoothClaim_q12]

/-- C2: on the literal worked example, `dynamic_smooth` with summary `min`
and threshold 0 collapses the A-quadrant of A to `[3,0,0,0]` and of B to
`[2,0,0,0]`, collapses the T-quadrant of A to `[3,0,0,0]` and of B to
`[4,0,0,0]`, and leaves the C- and G-quadrants of both profiles unchanged. -/
theorem C2_dynamic_smooth_worked_example :
    dynamic_smooth summary_min 0 ⟨2, exA, none⟩ ⟨2, exB, none⟩ =
      (⟨2, smA, none⟩, ⟨2, smB, none⟩) := by
  unfold dynamic_smooth
  simp only []
  rw [smoothAB]

/-- C1 (counterexample): smoothing first and then taking the default
multiset/diff-prod distance does not give 0.0625 — neither with profile A
exactly as the claim words it (only AA zero; result 1/168) nor with the
test fixture's profile A (AA and TC zero; result 2/165). -/
theorem C1_counterexample :
    distance { defaultConfig with do_smooth := true } ⟨2, exA_claim, none⟩ ⟨2, exB, none⟩ =
      1 / 168 ∧
    distance { defaultConfig with do_smooth := true } ⟨2, exA, none⟩ ⟨2, exB, none⟩ =
      2 / 165 ∧
    (1 / 168 : ℚ) ≠ 0.0625 ∧ (2 / 165 : ℚ) ≠ 0.0625 := by
  refine ⟨?_, ?_, by norm_num, by norm_num⟩
  · show multiset (dynamicSmoothAux summary_min 0 2 0 (exA_claim, exB)).1
      (dynamicSmoothAux summary_min 0 2 0 (exA_claim, exB)).2 pairwise_prod = 1 / 168
    rw [smoothClaim]
    norm_num [multiset, pairwise_prod, cmA, mdB, List.range_succ]
  · show multiset (dynamicSmoothAux summary_min 0 2 0 (exA, exB)).1
      (dynamicSmoothAux summary_min 0 2 0 (exA, exB)).2 pairwise_prod = 2 / 165
    rw [smoothAB]
    norm_num [multiset, pairwise_prod, smA, smB, List.range_succ]

/-- C1 (amended): on the worked example (A zero at AA and TC, B zero at AA
and AG), the default distance — whose default configuration applies no
smoothing — between the two profiles is 0.0625, as the test asserts. -/
theorem C1_amended_default_distance :
    distance defaultConfig ⟨2, exA, none⟩ ⟨2, exB, none⟩ = 0.0625 := by
  show multiset exA exB pairwise_prod = 0.0625
  norm_num [multiset, pairwise_prod, exA, exB, List.range_succ]

/-! ### C3: balance -/

theorem balanceStep_length (k : ℕ) (A : List ℚ) (i : ℕ) :
    (balanceStep k A i).length = A.length := by
  unfold balanceStep
  simp only []
  split
  · simp
  · split <;> simp

theorem balance_fold_length (k : ℕ) (l : List ℕ) :
    ∀ A : List ℚ, (l.foldl (balanceStep k) A).length = A.length := by
  induction l with
  | nil => intro A; rfl
  | cons x xs ih =>
    intro A
    rw [List.foldl_cons, ih, balanceStep_length]

theorem balance_fold_invariant (k : ℕ) (c : List ℚ) (hlen : c.length = 4 ^ k) :
    ∀ m, m ≤ 4 ^ k → ∀ i, i < 4 ^ k →
      ((List.range m).foldl (balanceStep k) c).getD i 0 =
        if min i (rcIdx k i) < m then c.getD i 0 + c.getD (rcIdx k i) 0
        else c.getD i 0 := by
  intro m
  induction m with
  | zero =>
    intro _ i _
    rw [List.range_zero, List.foldl_nil, if_neg (by omega)]
  | succ m ihm =>
    intro hm i hi
    have hm4 : m < 4 ^ k := by omega
    have IH := ihm (by omega)
    rw [List.range_succ, List.foldl_append, List.foldl_cons, List.foldl_nil]
    set F := (List.range m).foldl (balanceStep k) c with hF
    have hFlen : F.length = 4 ^ k := by rw [hF, balance_fold_length, hlen]
    set r := rcIdx k m with hr
    have hrlt : r < 4 ^ k := rcIdx_lt k m
    have hrr : rcIdx k r = m := rcIdx_invol k m hm4
    have hii : rcIdx k (rcIdx k i) = i := rcIdx_invol k i hi
    have hmin_i : rcIdx k i = m → i = r := by
      intro h
      have h2 : rcIdx k (rcIdx k i) = rcIdx k m := by rw [h]
      rw [hii] at h2
      rw [h2]
    rcases lt_trichotomy m r with hmr | hmr | hmr
    · -- i < i_rc : swap-accumulate through the temp variable
      have hFm : F.getD m 0 = c.getD m 0 := by
        rw [IH m hm4, if_neg (by omega)]
      have hFr : F.getD r 0 = c.getD r 0 := by
        rw [IH r hrlt, hrr, if_neg (by omega)]
      have hA1len : ∀ x : ℚ, (F.set m x).length = 4 ^ k := by
        intro x
        rw [List.length_set, hFlen]
      show (balanceStep k F m).getD i 0 = _
      unfold balanceStep
      simp only []
      rw [← hr, if_pos hmr]
      rw [getD_set_ne _ _ _ (by omega : m ≠ r)]
      by_cases him : i = m
      · rw [him, getD_set_ne _ _ _ (by omega : r ≠ m),
          getD_set_self _ _ _ _ (by rw [hFlen]; omega), hFm, hFr, if_pos (by omega), ← hr]
      · by_cases hir : i = r
        · rw [hir, getD_set_self _ _ _ _ (by rw [hA1len]; omega), hFm, hFr, hrr,
            if_pos (by omega)]
        · rw [getD_set_ne _ _ _ (Ne.symm hir), getD_set_ne _ _ _ (Ne.symm him), IH i hi]
          have hne : min i (rcIdx k i) ≠ m := by
            by_cases hrc : rcIdx k i = m
            · have := hmin_i hrc
              omega
            · omega
          by_cases hc : min i (rcIdx k i) < m
          · rw [if_pos hc, if_pos (by omega)]
          · rw [if_neg hc, if_neg (by omega)]
    · -- palindrome: double the count
      have hFm : F.getD m 0 = c.getD m 0 := by
        rw [IH m hm4, if_neg (by omega)]
      show (balanceStep k F m).getD i 0 = _
      unfold balanceStep
      simp only []
      rw [← hr, if_neg (by omega), if_pos hmr]
      by_cases him : i = m
      · rw [him, getD_set_self _ _ _ _ (by rw [hFlen]; omega), hFm, if_pos (by omega),
          ← hr, ← hmr]
      · rw [getD_set_ne _ _ _ (Ne.symm him), IH i hi]
        have hne : min i (rcIdx k i) ≠ m := by
          by_cases hrc : rcIdx k i = m
          · have := hmin_i hrc
            omega
          · omega
        by_cases hc : min i (rcIdx k i) < m
        · rw [if_pos hc, if_pos (by omega)]
        · rw [if_neg hc, if_neg (by omega)]
    · -- i_rc < i : the pair was already handled at iteration i_rc
      show (balanceStep k F m).getD i 0 = _
      unfold balanceStep
      simp only []
      rw [← hr, if_neg (by omega), if_neg (by omega)]
      rw [IH i hi]
      have hne : min i (rcIdx k i) ≠ m := by
        by_cases him : i = m
        · have hri : rcIdx k i = r := by rw [him]
          omega
        · by_cases hrc : rcIdx k i = m
          · have := hmin_i hrc
            omega
          · omega
      by_cases hc : min i (rcIdx k i) < m
      · rw [if_pos hc, if_pos (by omega)]
      · rw [if_neg hc, if_neg (by omega)]

theorem balance_getD (k : ℕ) (c : List ℚ) (hlen : c.length = 4 ^ k) :
    ∀ i, i < 4 ^ k →
      (balance k c).getD i 0 = c.getD i 0 + c.getD (rcIdx k i) 0 := by
  intro i hi
  unfold balance
  rw [hlen]
  rw [balance_fold_invariant k c hlen (4 ^ k) le_rfl i hi, if_pos (by omega)]

theorem balance_sum (k : ℕ) (c : List ℚ) (hlen : c.length = 4 ^ k) :
    (balance k c).sum = 2 * c.sum := by
  have hblen : (balance k c).length = c.length := balance_fold_length k _ c
  rw [sum_eq_range_getD, hblen, hlen]
  have hstep : ∀ i ∈ Finset.range (4 ^ k),
      (balance k c).getD i 0 = c.getD i 0 + c.getD (rcIdx k i) 0 := by
    intro i hi
    exact balance_getD k c hlen i (Finset.mem_range.mp hi)
  rw [Finset.sum_congr rfl hstep, Finset.sum_add_distrib]
  have hbij : ∑ i ∈ Finset.range (4 ^ k), c.getD (rcIdx k i) 0 =
      ∑ i ∈ Finset.range (4 ^ k), c.getD i 0 := by
    refine Finset.sum_nbij' (fun a => rcIdx k a) (fun a => rcIdx k a) ?_ ?_ ?_ ?_ ?_
    · intro a ha
      exact Finset.mem_range.mpr (rcIdx_lt k a)
    · intro a ha
      exact Finset.mem_range.mpr (rcIdx_lt k a)
    · intro a ha
      exact rcIdx_invol k a (Finset.mem_range.mp ha)
    · intro a ha
      exact rcIdx_invol k a (Finset.mem_range.mp ha)
    · intro a ha
      rfl
  rw [hbij, sum_eq_range_getD c, hlen]
  ring

/-- C3: after `balance()`, for every non-palindromic pair `(i, r)` both
positions hold `original[i] + original[r]`; every palindromic position is
doubled; and the total is twice the original total. -/
theorem C3_balance_spec (k : ℕ) (c : List ℚ) (hlen : c.length = 4 ^ k) :
    (∀ i, i < 4 ^ k → rcIdx k i ≠ i →
      (balance k c).getD i 0 = c.getD i 0 + c.getD (rcIdx k i) 0 ∧
      (balance k c).getD (rcIdx k i) 0 = c.getD i 0 + c.getD (rcIdx k i) 0) ∧
    (∀ i, i < 4 ^ k → rcIdx k i = i →
      (balance k c).getD i 0 = 2 * c.getD i 0) ∧
    (balance k c).sum = 2 * c.sum := by
  refine ⟨fun i hi hne => ⟨balance_getD k c hlen i hi, ?_⟩, fun i hi heq => ?_, balance_sum k c hlen⟩
  · rw [balance_getD k c hlen (rcIdx k i) (rcIdx_lt k i), rcIdx_invol k i hi, add_comm]
  · rw [balance_getD k c hlen i hi, heq]
    ring

/-- Witness for C3 on the `k = 1` profile `[1, 2, 3, 40]` (pair A/T gets
41 in both slots, pair C/G gets 5, total doubles from 46 to 92). -/
theorem C3_balance_spec_witness :
    ([1, 2, 3, 40] : List ℚ).length = 4 ^ 1 ∧
    (balance 1 [1, 2, 3, 40]).getD 0 0 = 41 ∧
    (balance 1 [1, 2, 3, 40]).getD 3 0 = 41 ∧
    (balance 1 [1, 2, 3, 40]).sum = 92 := by
  have h := C3_balance_spec 1 [1, 2, 3, 40] (by norm_num)
  have hrc : rcIdx 1 0 = 3 := by decide
  refine ⟨by norm_num, ?_, ?_, ?_⟩
  · have h0 := (h.1 0 (by norm_num) (by rw [hrc]; norm_num)).1
    rw [hrc] at h0
    rw [h0]
    norm_num
  · have h0 := (h.1 0 (by norm_num) (by rw [hrc]; norm_num)).2
    rw [hrc] at h0
    rw [h0]
    norm_num
  · rw [h.2.2]
    norm_num

/-! ### C10: dynamic smoothing preserves the totals -/

theorem pow_succ_four (k : ℕ) : (4 : ℕ) ^ (k + 1) = 4 * 4 ^ k := by ring

theorem collapse_sum (l : List ℚ) (start k : ℕ) :
    (collapse l start (4 ^ (k + 1))).sum = ((l.drop start).take (4 ^ (k + 1))).sum := by
  unfold collapse
  have h4 : (4 : ℕ) ^ (k + 1) / 4 = 4 ^ k := by
    rw [pow_succ]
    exact Nat.mul_div_cancel _ (by norm_num)
  rw [h4]
  exact chunkSums_sum (4 ^ k) (by positivity) _ _ le_rfl

theorem writeCollapse_length (v : List ℚ) (start L : ℕ) (total : ℚ)
    (h : start + L ≤ v.length) (hL : 1 ≤ L) :
    (writeCollapse v start L total).length = v.length := by
  unfold writeCollapse
  simp only [List.length_append, List.length_take, List.length_cons, List.length_replicate,
    List.length_drop]
  omega

theorem sum_slice_decomp (v : List ℚ) (start L : ℕ) :
    v.sum = (v.take start).sum + ((v.drop start).take L).sum + (v.drop (start + L)).sum := by
  conv_lhs => rw [← List.take_append_drop start v]
  rw [List.sum_append]
  conv_lhs => rw [← List.take_append_drop L (v.drop start)]
  rw [List.sum_append, List.drop_drop]
  ring

theorem writeCollapse_sum (v : List ℚ) (start L : ℕ)
    (h : start + L ≤ v.length) (hL : 1 ≤ L) :
    (writeCollapse v start L ((v.drop start).take L).sum).sum = v.sum := by
  unfold writeCollapse
  rw [List.sum_append, List.sum_append, List.sum_cons, List.sum_replicate, smul_zero]
  conv_rhs => rw [sum_slice_decomp v start L]
  ring

theorem smoothAux_len_sum (f : List ℚ → ℚ) (θ : ℚ) :
    ∀ (k start : ℕ) (lr : List ℚ × List ℚ),
      start + 4 ^ k ≤ lr.1.length → start + 4 ^ k ≤ lr.2.length →
      (dynamicSmoothAux f θ k start lr).1.length = lr.1.length ∧
      (dynamicSmoothAux f θ k start lr).2.length = lr.2.length ∧
      (dynamicSmoothAux f θ k start lr).1.sum = lr.1.sum ∧
      (dynamicSmoothAux f θ k start lr).2.sum = lr.2.sum := by
  intro k
  induction k with
  | zero =>
    intro start lr _ _
    exact ⟨rfl, rfl, rfl, rfl⟩
  | succ k ih =>
    intro start lr hl hr
    obtain ⟨l, r⟩ := lr
    simp only [] at hl hr
    have hp : (4 : ℕ) ^ (k + 1) = 4 * 4 ^ k := pow_succ_four k
    have h1L : 1 ≤ 4 ^ (k + 1) := Nat.one_le_pow _ _ (by norm_num)
    rw [dynamicSmoothAux]
    simp only []
    have hl' : start + 4 ^ (k + 1) ≤ l.length := hl
    have hr' : start + 4 ^ (k + 1) ≤ r.length := hr
    by_cases hcond :
      min (f (collapse l start (4 ^ (k + 1)))) (f (collapse r start (4 ^ (k + 1)))) ≤ θ
    · rw [if_pos hcond]
      refine ⟨?_, ?_, ?_, ?_⟩
      · show (writeCollapse l start (4 ^ (k + 1)) (collapse l start (4 ^ (k + 1))).sum).length =
          l.length
        exact writeCollapse_length _ _ _ _ hl' h1L
      · show (writeCollapse r start (4 ^ (k + 1)) (collapse r start (4 ^ (k + 1))).sum).length =
          r.length
        exact writeCollapse_length _ _ _ _ hr' h1L
      · show (writeCollapse l start (4 ^ (k + 1)) (collapse l start (4 ^ (k + 1))).sum).sum =
          l.sum
        rw [collapse_sum]
        exact writeCollapse_sum l start (4 ^ (k + 1)) hl' h1L
      · show (writeCollapse r start (4 ^ (k + 1)) (collapse r start (4 ^ (k + 1))).sum).sum =
          r.sum
        rw [collapse_sum]
        exact writeCollapse_sum r start (4 ^ (k + 1)) hr' h1L
    · rw [if_neg hcond]
      have h0 := ih start (l, r) (show start + 4 ^ k ≤ l.length by omega)
        (show start + 4 ^ k ≤ r.length by omega)
      have h0l : (dynamicSmoothAux f θ k start (l, r)).1.length = l.length := h0.1
      have h0r : (dynamicSmoothAux f θ k start (l, r)).2.length = r.length := h0.2.1
      set s0 := dynamicSmoothAux f θ k start (l, r) with hs0
      have h1 := ih (start + 4 ^ k) s0
        (show start + 4 ^ k + 4 ^ k ≤ s0.1.length by omega)
        (show start + 4 ^ k + 4 ^ k ≤ s0.2.length by omega)
      have h1l : (dynamicSmoothAux f θ k (start + 4 ^ k) s0).1.length = s0.1.length := h1.1
      have h1r : (dynamicSmoothAux f θ k (start + 4 ^ k) s0).2.length = s0.2.length := h1.2.1
      set s1 := dynamicSmoothAux f θ k (start + 4 ^ k) s0 with hs1
      have h2 := ih (start + 2 * 4 ^ k) s1
        (show start + 2 * 4 ^ k + 4 ^ k ≤ s1.1.length by omega)
        (show start + 2 * 4 ^ k + 4 ^ k ≤ s1.2.length by omega)
      have h2l : (dynamicSmoothAux f θ k (start + 2 * 4 ^ k) s1).1.length = s1.1.length := h2.1
      have h2r : (dynamicSmoothAux f θ k (start + 2 * 4 ^ k) s1).2.length = s1.2.length := h2.2.1
      set s2 := dynamicSmoothAux f θ k (start + 2 * 4 ^ k) s1 with hs2
      have h3 := ih (start + 3 * 4 ^ k) s2
        (show start + 3 * 4 ^ k + 4 ^ k ≤ s2.1.length by omega)
        (show start + 3 * 4 ^ k + 4 ^ k ≤ s2.2.length by omega)
      refine ⟨?_, ?_, ?_, ?_⟩
      · exact h3.1.trans (h2.1.trans (h1.1.trans h0.1))
      · exact h3.2.1.trans (h2.2.1.trans (h1.2.1.trans h0.2.1))
      · exact h3.2.2.1.trans (h2.2.2.1.trans (h1.2.2.1.trans h0.2.2.1))
      · exact h3.2.2.2.trans (h2.2.2.2.trans (h1.2.2.2.trans h0.2.2.2))

/-- C10: for every pair of equal-size profiles of size `4^k`, every summary
function and every threshold, `dynamic_smooth` preserves each profile's
total count. -/
theorem C10_smooth_preserves_total (f : List ℚ → ℚ) (θ : ℚ) (left right : Profile)
    (hl : left.counts.length = 4 ^ left.length)
    (hr : right.counts.length = 4 ^ left.length) :
    (dynamic_smooth f θ left right).1.total = left.total ∧
    (dynamic_smooth f θ left right).2.total = right.total := by
  have h := smoothAux_len_sum f θ left.length 0 (left.counts, right.counts)
    (by simp [hl]) (by simp [hr])
  exact ⟨h.2.2.1, h.2.2.2⟩

/-- Witness for C10 on two `k = 1` profiles. -/
theorem C10_smooth_preserves_total_witness :
    (⟨1, [1, 2, 3, 4], none⟩ : Profile).counts.length = 4 ^ 1 ∧
    (dynamic_smooth summary_min 0 ⟨1, [1, 2, 3, 4], none⟩ ⟨1, [0, 1, 1, 1], none⟩).1.total = 10 ∧
    (dynamic_smooth summary_min 0 ⟨1, [1, 2, 3, 4], none⟩ ⟨1, [0, 1, 1, 1], none⟩).2.total = 3 := by
  have h := C10_smooth_preserves_total summary_min 0 ⟨1, [1, 2, 3, 4], none⟩
    ⟨1, [0, 1, 1, 1], none⟩ (by norm_num) (by norm_num)
  refine ⟨by norm_num, ?_, ?_⟩
  · rw [h.1]
    show ([1, 2, 3, 4] : List ℚ).sum = 10
    norm_num
  · rw [h.2]
    show ([0, 1, 1, 1] : List ℚ).sum = 3
    norm_num

/-! ### C9: the Distance Engine never mutates the caller's profiles -/

theorem heapGet_set_ne (h : Heap) (i a : ℕ) (v : List ℚ) (hne : a ≠ i) :
    heapGet (heapSet h i v) a = heapGet h a :=
  getD_set_ne h v [] (Ne.symm hne)

theorem heapGet_append_left (h t : Heap) (a : ℕ) (ha : a < h.length) :
    heapGet (h ++ t) a = heapGet h a := by
  unfold heapGet
  rw [List.getD_eq_getElem?_getD, List.getD_eq_getElem?_getD, List.getElem?_append_left ha]

theorem stepBalance_frame (cfg : ProfileDistanceConfig) (left right : ProfileRef)
    (h : Heap) (a : ℕ) (hl : a ≠ left.countsAddr) (hr : a ≠ right.countsAddr) :
    heapGet (stepBalance cfg left right h) a = heapGet h a := by
  unfold stepBalance
  by_cases hb : cfg.do_balance = true
  · rw [if_pos hb]
    simp only []
    rw [heapGet_set_ne _ _ _ _ hr, heapGet_set_ne _ _ _ _ hl]
  · rw [if_neg hb]

theorem stepPositive_frame (cfg : ProfileDistanceConfig) (left right : ProfileRef)
    (h : Heap) (a : ℕ) (hl : a ≠ left.countsAddr) (hr : a ≠ right.countsAddr) :
    heapGet (stepPositive cfg left right h) a = heapGet h a := by
  unfold stepPositive
  by_cases hb : cfg.do_positive = true
  · rw [if_pos hb]
    simp only []
    rw [heapGet_set_ne _ _ _ _ hr, heapGet_set_ne _ _ _ _ hl]
  · rw [if_neg hb]

theorem stepSmooth_frame (cfg : ProfileDistanceConfig) (left right : ProfileRef)
    (h : Heap) (a : ℕ) (hl : a ≠ left.countsAddr) (hr : a ≠ right.countsAddr) :
    heapGet (stepSmooth cfg left right h) a = heapGet h a := by
  unfold stepSmooth
  by_cases hb : cfg.do_smooth = true
  · rw [if_pos hb]
    simp only []
    rw [heapGet_set_ne _ _ _ _ hr, heapGet_set_ne _ _ _ _ hl]
  · rw [if_neg hb]

theorem stepScale_frame (cfg : ProfileDistanceConfig) (left right : ProfileRef)
    (h : Heap) (a : ℕ) (hl : a ≠ left.countsAddr) (hr : a ≠ right.countsAddr) :
    heapGet (stepScale cfg left right h) a = heapGet h a := by
  unfold stepScale
  by_cases hb : cfg.do_scale = true
  · rw [if_pos hb]
    simp only []
    rw [heapGet_set_ne _ _ _ _ hr, heapGet_set_ne _ _ _ _ hl]
  · rw [if_neg hb]

/-- C9: `ProfileDistance.distance` operates on deep copies only — after the
call, every array the caller could reach through the original heap is
unchanged (the copies live at the fresh addresses `h.length` and
`h.length + 1`; the caller's profile objects themselves are immutable values
in this model, so their `length`/`name` fields are unchanged by
construction). -/
theorem C9_distance_preserves_inputs (cfg : ProfileDistanceConfig) (h : Heap)
    (pl pr : ProfileRef) (a : ℕ) (ha : a < h.length) :
    heapGet (distanceHeap cfg h pl pr).1 a = heapGet h a := by
  unfold distanceHeap
  simp only []
  have hLaddr : (copyRef h pl).2.countsAddr = h.length := rfl
  have hRaddr : (copyRef (copyRef h pl).1 pr).2.countsAddr = h.length + 1 := by
    show (h ++ [heapGet h pl.countsAddr]).length = h.length + 1
    simp
  rw [stepScale_frame _ _ _ _ _ (by rw [hLaddr]; omega) (by rw [hRaddr]; omega),
    stepSmooth_frame _ _ _ _ _ (by rw [hLaddr]; omega) (by rw [hRaddr]; omega),
    stepPositive_frame _ _ _ _ _ (by rw [hLaddr]; omega) (by rw [hRaddr]; omega),
    stepBalance_frame _ _ _ _ _ (by rw [hLaddr]; omega) (by rw [hRaddr]; omega)]
  show heapGet ((h ++ [heapGet h pl.countsAddr]) ++
    [heapGet (h ++ [heapGet h pl.countsAddr]) pr.countsAddr]) a = heapGet h a
  rw [heapGet_append_left _ _ _ (by simp; omega), heapGet_append_left _ _ _ ha]

/-- Witness for C9: a one-cell heap, both profiles pointing at cell 0,
default configuration. -/
theorem C9_distance_preserves_inputs_witness :
    0 < ([[1, 2, 3, 4]] : Heap).length ∧
    heapGet (distanceHeap defaultConfig [[1, 2, 3, 4]] ⟨1, 0, none⟩ ⟨1, 0, none⟩).1 0 =
      [1, 2, 3, 4] :=
  ⟨by norm_num,
    (C9_distance_preserves_inputs defaultConfig [[1, 2, 3, 4]] ⟨1, 0, none⟩ ⟨1, 0, none⟩ 0
      (by norm_num)).trans rfl⟩

/-! ### C6: where the length checks live -/

/-- C6 (amended): the length validation is performed by the CLI layer
(`kmer.py`), which raises `ValueError(LENGTH_ERROR)` exactly when the two
profiles' lengths differ; the core `Profile.merge` itself performs no length
check — numpy's broadcasting accepts any pair whose counts sizes are equal
or where one side has a single element, and only otherwise raises a
broadcast error. -/
theorem C6_amended_length_checks :
    (∀ left right : Profile,
      (∃ e, cliLengthCheck left right = Except.error e) ↔ left.length ≠ right.length) ∧
    (∀ left right : Profile, left.length ≠ right.length →
      cliLengthCheck left right = Except.error LENGTH_ERROR) ∧
    (∀ x y : List ℚ,
      (∃ z, npBroadcastAdd x y = Except.ok z) ↔
        (x.length = y.length ∨ x.length = 1 ∨ y.length = 1)) := by
  refine ⟨fun left right => ?_, fun left right hne => ?_, fun x y => ?_⟩
  · unfold cliLengthCheck
    by_cases hne : left.length = right.length
    · rw [if_neg (by omega)]
      exact ⟨fun ⟨e, he⟩ => absurd he (by simp), fun hc => absurd hne hc⟩
    · rw [if_pos hne]
      exact ⟨fun _ => hne, fun _ => ⟨_, rfl⟩⟩
  · unfold cliLengthCheck
    rw [if_pos hne]
  · unfold npBroadcastAdd
    by_cases h1 : x.length = y.length
    · rw [if_pos h1]
      exact ⟨fun _ => Or.inl h1, fun _ => ⟨_, rfl⟩⟩
    · rw [if_neg h1]
      by_cases h2 : x.length = 1
      · rw [if_pos h2]
        exact ⟨fun _ => Or.inr (Or.inl h2), fun _ => ⟨_, rfl⟩⟩
      · rw [if_neg h2]
        by_cases h3 : y.length = 1
        · rw [if_pos h3]
          exact ⟨fun _ => Or.inr (Or.inr h3), fun _ => ⟨_, rfl⟩⟩
        · rw [if_neg h3]
          exact ⟨fun ⟨z, hz⟩ => absurd hz (by simp), fun hc => by tauto⟩

/-- Witness for C6 (the error side, at concrete profiles of lengths 1 and 2). -/
theorem C6_amended_length_checks_witness :
    (⟨1, [1, 2, 3, 4], none⟩ : Profile).length ≠ (⟨2, [], none⟩ : Profile).length ∧
    cliLengthCheck ⟨1, [1, 2, 3, 4], none⟩ ⟨2, [], none⟩ = Except.error LENGTH_ERROR :=
  ⟨by norm_num,
    C6_amended_length_checks.2.1 ⟨1, [1, 2, 3, 4], none⟩ ⟨2, [], none⟩ (by norm_num)⟩

/-- C6 (counterexample): the core `Profile.merge` does not raise for
mismatched lengths — a length-0 profile (a single count) is silently
broadcast against a length-1 profile, returning a normal result. -/
theorem C6_counterexample :
    (⟨0, [5], none⟩ : Profile).length ≠ (⟨1, [1, 2, 3, 4], none⟩ : Profile).length ∧
    Profile.merge ⟨0, [5], none⟩ ⟨1, [1, 2, 3, 4], none⟩ =
      Except.ok ⟨0, [6, 7, 8, 9], none⟩ := by
  refine ⟨by norm_num, ?_⟩
  show (npBroadcastAdd [5] [1, 2, 3, 4]).map _ = _
  rw [npBroadcastAdd, if_neg (by norm_num), if_pos (by norm_num)]
  show Except.ok _ = _
  norm_num

/-! ### C7: the distance matrix output -/

theorem join_foldl (l : List String) : ∀ a : String,
    l.foldl (· ++ ·) a = a ++ String.join l := by
  induction l with
  | nil =>
    intro a
    show a = a ++ String.join []
    rw [show String.join [] = "" from rfl, String.append_empty]
  | cons x xs ih =>
    intro a
    show xs.foldl (· ++ ·) (a ++ x) = _
    rw [ih (a ++ x)]
    have h2 : String.join (x :: xs) = x ++ String.join xs := by
      show xs.foldl (· ++ ·) ("" ++ x) = _
      rw [String.empty_append, ih x]
    rw [h2, String.append_assoc]

theorem join_cons (s : String) (l : List String) :
    String.join (s :: l) = s ++ String.join l := by
  show l.foldl (· ++ ·) ("" ++ s) = _
  rw [String.empty_append, join_foldl]

theorem join_append (l1 l2 : List String) :
    String.join (l1 ++ l2) = String.join l1 ++ String.join l2 := by
  induction l1 with
  | nil =>
    rw [List.nil_append]
    rw [show String.join [] = "" from rfl, String.empty_append]
  | cons x xs ih =>
    rw [List.cons_append, join_cons, join_cons, ih, String.append_assoc]

/-- The declarative "space-separated" rendering of a list of entries. -/
def spaceSeparated : List String → String
  | [] => ""
  | [x] => x
  | x :: y :: xs => x ++ " " ++ spaceSeparated (y :: xs)

theorem spaceSeparated_concat : ∀ (l : List String) (x : String),
    spaceSeparated (l ++ [x]) = if l.isEmpty then x else spaceSeparated l ++ " " ++ x
  | [], x => by simp [spaceSeparated]
  | [y], x => by simp [spaceSeparated]
  | y :: z :: zs, x => by
    show spaceSeparated (y :: ((z :: zs) ++ [x])) = _
    rw [show spaceSeparated (y :: ((z :: zs) ++ [x])) =
      y ++ " " ++ spaceSeparated ((z :: zs) ++ [x]) from rfl]
    rw [spaceSeparated_concat (z :: zs) x]
    simp [spaceSeparated, String.append_assoc]

theorem row_join (f : ℕ → String) : ∀ i : ℕ,
    String.join ((List.range i).flatMap (fun j => (if j ≠ 0 then [" "] else []) ++ [f j])) =
      spaceSeparated ((List.range i).map f) := by
  intro i
  induction i with
  | zero => rfl
  | succ i ih =>
    rw [List.range_succ, List.flatMap_append, join_append, ih, List.map_append]
    have hg : String.join ([i].flatMap (fun j => (if j ≠ 0 then [" "] else []) ++ [f j])) =
        (if i ≠ 0 then " " else "") ++ f i := by
      by_cases hi : i = 0
      · subst hi
        rfl
      · simp only [List.flatMap_cons, List.flatMap_nil, List.append_nil]
        rw [if_pos hi, if_pos hi]
        rfl
    rw [hg, show List.map f [i] = [f i] from rfl]
    by_cases hi : i = 0
    · subst hi
      rw [if_neg (by simp : ¬ (0 ≠ 0))]
      show spaceSeparated (List.map f (List.range 0)) ++ ("" ++ f 0) = _
      rw [String.empty_append]
      rfl
    · rw [if_pos hi, spaceSeparated_concat,
        if_neg (by simp [List.isEmpty_iff, List.range_eq_nil, hi]),
        ← String.append_assoc]

theorem join_singleton (s : String) : String.join [s] = s := by
  rw [join_cons, show String.join [] = "" from rfl, String.append_empty]

theorem rows_join (g : ℕ → List String) (rowStr : ℕ → String)
    (hrow : ∀ i, String.join (g i) = rowStr i) :
    ∀ L : List ℕ, String.join (L.flatMap g) = String.join (L.map rowStr) := by
  intro L
  induction L with
  | nil => rfl
  | cons x xs ih =>
    rw [List.flatMap_cons, join_append, hrow, List.map_cons, join_cons, ih]

/-- C7 (amended): the "at least two profiles" guard lives in the CLI layer
(`kmer.py`); `kdistlib.distance_matrix` itself accepts any number of
profiles and writes the profile count, one name per line, and then for each
`i` in `1..N-1` a line of the distances to profiles `0..i-1`, formatted to
`precision` digits, space-separated within a row. -/
theorem C7_amended_matrix_output :
    (∀ names : List String,
      (∃ e, cliMatrixPrecheck names = Except.error e) ↔ names.length < 2) ∧
    (∀ (profiles : List Profile) (precision : ℕ) (cfg : ProfileDistanceConfig),
      String.join (distance_matrix profiles precision cfg) =
        toString profiles.length ++ "\n" ++
        String.join (profiles.map (fun p => p.name.getD "None" ++ "\n")) ++
        String.join ((List.range' 1 (profiles.length - 1)).map (fun i =>
          spaceSeparated ((List.range i).map (fun j =>
            formatFixed precision
              (distance cfg (profiles.getD i default) (profiles.getD j default)))) ++
          "\n"))) := by
  constructor
  · intro names
    unfold cliMatrixPrecheck
    by_cases h2 : names.length < 2
    · rw [if_pos h2]
      exact ⟨fun _ => h2, fun _ => ⟨_, rfl⟩⟩
    · rw [if_neg h2]
      exact ⟨fun ⟨e, he⟩ => absurd he (by simp), fun hc => absurd hc h2⟩
  · intro profiles precision cfg
    unfold distance_matrix
    simp only []
    rw [join_append, join_append, join_singleton]
    rw [rows_join _
      (fun i => spaceSeparated ((List.range i).map (fun j =>
        formatFixed precision
          (distance cfg (profiles.getD i default) (profiles.getD j default)))) ++ "\n")
      (fun i => by rw [join_append, row_join, join_singleton])]

/-- Witness for C7 (the CLI guard side, at a concrete single name). -/
theorem C7_amended_matrix_output_witness :
    (∃ e, cliMatrixPrecheck ["a"] = Except.error e) ↔ (["a"] : List String).length < 2 :=
  C7_amended_matrix_output.1 ["a"]

/-- C7 (counterexample): `distance_matrix` raises nothing for a single
profile — it writes the count and the name and no rows, exactly as
`test_distance_matrix_one` asserts. -/
theorem C7_counterexample :
    distance_matrix [⟨1, [1, 2, 3, 4], some "a"⟩] 2 defaultConfig = ["1\n", "a\n"] := by
  rfl

/-! ### C4: the counting driver computes the naive sliding-window counts -/

/-- Mathematical form of the codec's left-to-right encoding. -/
def encodeN (w : List Char) : ℕ := w.foldl (fun b c => 4 * b + nv c) 0

/-- Fold a list of increments into a counts array. -/
def applyIncr (counts : List ℕ) (js : List ℕ) : List ℕ := js.foldl incr counts

/-- The successive windows visited by the incremental loop: at each new
symbol the window loses its first character and gains the new one. -/
def slideWins (w : List Char) : List Char → List (List Char)
  | [] => []
  | c :: t => (w.drop 1 ++ [c]) :: slideWins (w.drop 1 ++ [c]) t

/-- The naive sliding-window count of windows encoding to `j`: a window
position `p` contributes exactly when the `k` characters starting at `p`
are all valid nucleotides and encode to `j` (the codec rejects any window
containing an ambiguous character). -/
def naiveCount (k : ℕ) (s : List Char) (j : ℕ) : ℕ :=
  ((List.range (s.length + 1 - k)).filter
    (fun p => decide (dna_to_binary ((s.drop p).take k) = some j))).length

theorem nucleotide_to_binary_lt (c : Char) (v : ℕ)
    (h : nucleotide_to_binary c = some v) : v < 4 := by
  unfold nucleotide_to_binary at h
  repeat' split at h
  all_goals simp_all
  all_goals omega

theorem nv_of_some (c : Char) (v : ℕ) (h : nucleotide_to_binary c = some v) : nv c = v := by
  unfold nv
  rw [h]
  rfl

theorem nv_lt (c : Char) : nv c < 4 := by
  unfold nv nucleotide_to_binary
  repeat' split
  all_goals simp

theorem encodeStep_eq (b : ℕ) (c : Char) : encodeStep b c = 4 * b + nv c := by
  unfold encodeStep
  exact shiftOr_eq b (nv c) (nv_lt c)

theorem foldl_encodeStep (w : List Char) : ∀ b : ℕ,
    w.foldl encodeStep b = w.foldl (fun b c => 4 * b + nv c) b := by
  induction w with
  | nil => intro b; rfl
  | cons c t ih =>
    intro b
    rw [List.foldl_cons, List.foldl_cons, encodeStep_eq, ih]

theorem encodeN_general (w : List Char) : ∀ b : ℕ,
    w.foldl (fun b c => 4 * b + nv c) b = b * 4 ^ w.length + encodeN w := by
  induction w with
  | nil => intro b; simp [encodeN]
  | cons c t ih =>
    intro b
    rw [List.foldl_cons, ih (4 * b + nv c)]
    have h2 : encodeN (c :: t) = nv c * 4 ^ t.length + encodeN t := by
      show List.foldl _ 0 (c :: t) = _
      rw [List.foldl_cons, ih (4 * 0 + nv c)]
      norm_num
    rw [h2, List.length_cons]
    ring

theorem encodeN_cons (c : Char) (t : List Char) :
    encodeN (c :: t) = nv c * 4 ^ t.length + encodeN t := by
  show List.foldl _ 0 (c :: t) = _
  rw [List.foldl_cons, encodeN_general t (4 * 0 + nv c)]
  norm_num

theorem encodeN_lt (w : List Char) : encodeN w < 4 ^ w.length := by
  induction w with
  | nil => simp [encodeN]
  | cons c t ih =>
    rw [encodeN_cons, List.length_cons]
    have h1 : nv c * 4 ^ t.length ≤ 3 * 4 ^ t.length :=
      Nat.mul_le_mul_right _ (by have := nv_lt c; omega)
    have hp : (4 : ℕ) ^ (t.length + 1) = 4 * 4 ^ t.length := by ring
    omega

theorem encodeN_concat (w : List Char) (c : Char) :
    encodeN (w ++ [c]) = 4 * encodeN w + nv c := by
  unfold encodeN
  rw [List.foldl_append, List.foldl_cons, List.foldl_nil]

theorem slide_mod (k : ℕ) (hk : 0 < k) (w : List Char) (hw : w.length = k) (c : Char) :
    (4 * encodeN w + nv c) % 4 ^ k = encodeN (w.drop 1 ++ [c]) := by
  obtain ⟨a, t, rfl⟩ : ∃ a t, w = a :: t := by
    cases w with
    | nil => simp at hw; omega
    | cons a t => exact ⟨a, t, rfl⟩
  rw [encodeN_cons, show (a :: t).drop 1 = t from rfl, encodeN_concat]
  have hlen : t.length + 1 = k := by simpa using hw
  have hlt : 4 * encodeN t + nv c < 4 ^ k := by
    have h1 : encodeN t < 4 ^ t.length := encodeN_lt t
    have h2 : nv c < 4 := nv_lt c
    have hp : (4 : ℕ) ^ k = 4 * 4 ^ t.length := by rw [← hlen]; ring
    omega
  have harg : 4 * (nv a * 4 ^ t.length + encodeN t) + nv c =
      4 ^ k * nv a + (4 * encodeN t + nv c) := by
    rw [show (4 : ℕ) ^ k = 4 ^ (t.length + 1) from by rw [hlen]]
    ring
  rw [harg, Nat.mul_add_mod, Nat.mod_eq_of_lt hlt]

theorem and_mask (x k : ℕ) : x &&& (4 ^ k - 1) = x % 4 ^ k := by
  have h : (4 : ℕ) ^ k = 2 ^ (2 * k) := by
    rw [pow_mul]
    norm_num
  rw [h]
  exact Nat.and_pow_two_sub_one_eq_mod x (2 * k)

theorem incr_length (counts : List ℕ) (i : ℕ) : (incr counts i).length = counts.length := by
  unfold incr
  simp

theorem applyIncr_length (js : List ℕ) : ∀ counts : List ℕ,
    (applyIncr counts js).length = counts.length := by
  induction js with
  | nil => intro counts; rfl
  | cons i t ih =>
    intro counts
    show (applyIncr (incr counts i) t).length = _
    rw [ih, incr_length]

theorem incr_getD (counts : List ℕ) (i j : ℕ) (hi : i < counts.length) :
    (incr counts i).getD j 0 = counts.getD j 0 + (if i = j then 1 else 0) := by
  unfold incr
  by_cases hij : i = j
  · subst hij
    rw [getD_set_self _ _ _ _ hi, if_pos rfl]
  · rw [getD_set_ne _ _ _ hij, if_neg hij, Nat.add_zero]

theorem applyIncr_getD : ∀ (js : List ℕ) (counts : List ℕ) (j : ℕ),
    (∀ i ∈ js, i < counts.length) →
    (applyIncr counts js).getD j 0 = counts.getD j 0 + js.count j := by
  intro js
  induction js with
  | nil =>
    intro counts j _
    simp [applyIncr]
  | cons i t ih =>
    intro counts j hmem
    show (applyIncr (incr counts i) t).getD j 0 = _
    rw [ih (incr counts i) j
      (fun x hx => by rw [incr_length]; exact hmem x (List.mem_cons_of_mem _ hx))]
    rw [incr_getD counts i j (hmem i (List.mem_cons_self _ _))]
    rw [List.count_cons]
    by_cases hij : i = j <;> simp [hij] <;> omega

theorem slideWins_mem_length : ∀ (t : List Char) (w x : List Char), 0 < w.length →
    x ∈ slideWins w t → x.length = w.length := by
  intro t
  induction t with
  | nil =>
    intro w x _ hx
    simp [slideWins] at hx
  | cons c t' ih =>
    intro w x hw hx
    have hlen : (w.drop 1 ++ [c]).length = w.length := by
      simp
      omega
    rcases List.mem_cons.mp hx with h | h
    · rw [h, hlen]
    · exact (ih (w.drop 1 ++ [c]) x (by omega) h).trans hlen

theorem dna_foldlM_valid : ∀ (w : List Char) (b : ℕ), (∀ c ∈ w, isNuc c) →
    (w.foldlM (fun result c =>
        (nucleotide_to_binary c).map (fun v => (result <<< 2) ||| v)) b : Option ℕ) =
      some (w.foldl (fun b c => 4 * b + nv c) b) := by
  intro w
  induction w with
  | nil => intro b _; rfl
  | cons c t ih =>
    intro b hv
    have hc := hv c (List.mem_cons_self _ _)
    obtain ⟨v, hvv⟩ : ∃ v, nucleotide_to_binary c = some v := by
      unfold isNuc at hc
      exact Option.isSome_iff_exists.mp hc
    rw [List.foldlM_cons, hvv]
    simp only [Option.map_some', Option.bind_eq_bind, Option.some_bind]
    rw [shiftOr_eq b v (nucleotide_to_binary_lt c v hvv), ← nv_of_some c v hvv,
      List.foldl_cons]
    exact ih (4 * b + nv c) (fun x hx => hv x (List.mem_cons_of_mem _ hx))

theorem dna_to_binary_of_valid (w : List Char) (hw : ∀ c ∈ w, isNuc c) :
    dna_to_binary w = some (encodeN w) :=
  dna_foldlM_valid w 0 hw

theorem dna_foldlM_invalid : ∀ (w : List Char) (b : ℕ), (∃ c ∈ w, ¬ isNuc c) →
    (w.foldlM (fun result c =>
        (nucleotide_to_binary c).map (fun v => (result <<< 2) ||| v)) b : Option ℕ) = none := by
  intro w
  induction w with
  | nil =>
    intro b h
    simp at h
  | cons c t ih =>
    intro b hex
    by_cases hc : isNuc c
    · obtain ⟨v, hvv⟩ : ∃ v, nucleotide_to_binary c = some v := by
        unfold isNuc at hc
        exact Option.isSome_iff_exists.mp hc
      rw [List.foldlM_cons, hvv]
      simp only [Option.map_some', Option.bind_eq_bind, Option.some_bind]
      apply ih
      obtain ⟨x, hmem, hx⟩ := hex
      rcases List.mem_cons.mp hmem with h | h
      · rw [h] at hx
        exact absurd hc hx
      · exact ⟨x, h, hx⟩
    · have hnone : nucleotide_to_binary c = none := by
        unfold isNuc at hc
        cases hcc : nucleotide_to_binary c with
        | none => rfl
        | some v => rw [hcc] at hc; simp at hc
      rw [List.foldlM_cons, hnone]
      rfl

theorem dna_to_binary_invalid (w : List Char) (h : ∃ c ∈ w, ¬ isNuc c) :
    dna_to_binary w = none :=
  dna_foldlM_invalid w 0 h

theorem processFold (k : ℕ) (hk : 0 < k) : ∀ (t w : List Char), w.length = k →
    ∀ counts : List ℕ,
    (t.foldl (fun p c =>
        let b := encodeStep p.1 c &&& (4 ^ k - 1)
        (b, incr p.2 b)) (encodeN w, counts)).2 =
      applyIncr counts ((slideWins w t).map encodeN) := by
  intro t
  induction t with
  | nil => intro w hw counts; rfl
  | cons c t' ih =>
    intro w hw counts
    have hb : encodeStep (encodeN w) c &&& (4 ^ k - 1) = encodeN (w.drop 1 ++ [c]) := by
      rw [encodeStep_eq, and_mask]
      exact slide_mod k hk w hw c
    have hw' : (w.drop 1 ++ [c]).length = k := by
      simp
      omega
    rw [List.foldl_cons]
    show (t'.foldl _ (encodeStep (encodeN w) c &&& (4 ^ k - 1),
        incr counts (encodeStep (encodeN w) c &&& (4 ^ k - 1)))).2 = _
    rw [hb, ih (w.drop 1 ++ [c]) hw' (incr counts (encodeN (w.drop 1 ++ [c])))]
    rfl

theorem processRun_eq (k : ℕ) (hk : 0 < k) (counts : List ℕ) (r : List Char)
    (h : k ≤ r.length) :
    processRun k counts r =
      applyIncr (incr counts (encodeN (r.take k)))
        ((slideWins (r.take k) (r.drop k)).map encodeN) := by
  unfold processRun
  rw [if_pos h]
  have hb0 : (r.take k).foldl encodeStep 0 = encodeN (r.take k) := by
    rw [foldl_encodeStep]
    rfl
  show ((r.drop k).foldl _ ((r.take k).foldl encodeStep 0,
      incr counts ((r.take k).foldl encodeStep 0))).2 = _
  rw [hb0]
  exact processFold k hk (r.drop k) (r.take k) (by rw [List.length_take]; omega)
    (incr counts (encodeN (r.take k)))

theorem slideWins_spec (k : ℕ) (hk : 0 < k) (s : List Char) :
    ∀ n p, p + k ≤ s.length → n = s.length - (p + k) →
    slideWins ((s.drop p).take k) (s.drop (p + k)) =
      (List.range' (p + 1) n).map (fun q => (s.drop q).take k) := by
  intro n
  induction n with
  | zero =>
    intro p hp hn
    rw [show s.drop (p + k) = [] from List.drop_eq_nil_of_le (by omega)]
    rfl
  | succ m ih =>
    intro p hp hn
    have hlt : p + k < s.length := by omega
    rw [List.drop_eq_getElem_cons hlt]
    show (((s.drop p).take k).drop 1 ++ [s[p + k]]) ::
        slideWins (((s.drop p).take k).drop 1 ++ [s[p + k]]) (s.drop (p + k + 1)) = _
    have hwin : ((s.drop p).take k).drop 1 ++ [s[p + k]] = (s.drop (p + 1)).take k := by
      rw [List.drop_take, List.drop_drop]
      have h1 : (s.drop (p + 1)).take k = (s.drop (p + 1)).take ((k - 1) + 1) := by
        congr 1
        omega
      rw [h1, List.take_succ, List.getElem?_drop]
      have h2 : p + 1 + (k - 1) = p + k := by omega
      rw [h2, List.getElem?_eq_getElem hlt]
      rfl
    rw [hwin]
    have h3 : p + k + 1 = (p + 1) + k := by omega
    rw [h3, ih (p + 1) (by omega) (by omega), List.range'_succ]
    rfl

theorem processRun_windows (k : ℕ) (hk : 0 < k) (counts : List ℕ) (r : List Char)
    (h : k ≤ r.length) :
    processRun k counts r =
      applyIncr counts
        ((List.range (r.length + 1 - k)).map (fun p => encodeN ((r.drop p).take k))) := by
  rw [processRun_eq k hk counts r h]
  have h0 : slideWins (r.take k) (r.drop k) =
      (List.range' 1 (r.length - k)).map (fun q => (r.drop q).take k) := by
    have hs := slideWins_spec k hk r (r.length - k) 0 (by omega) (by omega)
    simpa using hs
  rw [h0, List.map_map]
  have h1 : r.length + 1 - k = (r.length - k) + 1 := by omega
  rw [h1, List.range_eq_range', List.range'_succ]
  rfl

theorem processRun_nil (k : ℕ) (hk : 0 < k) (counts : List ℕ) :
    processRun k counts [] = counts := by
  unfold processRun
  rw [if_neg (by simp only [List.length_nil]; omega)]

theorem processRun_cons (k : ℕ) (hk : 0 < k) (counts : List ℕ) (c : Char) (r : List Char) :
    processRun k counts (c :: r) =
      processRun k
        (if k ≤ r.length + 1 then incr counts (encodeN ((c :: r).take k)) else counts) r := by
  rcases lt_trichotomy k (r.length + 1) with hlt | heq | hgt
  · have hkr : k ≤ r.length := by omega
    have hkc : k ≤ (c :: r).length := by simp only [List.length_cons]; omega
    rw [if_pos (by omega), processRun_windows k hk counts (c :: r) hkc,
      processRun_windows k hk _ r hkr]
    have hlen : (c :: r).length + 1 - k = (r.length + 1 - k) + 1 := by
      simp only [List.length_cons]
      omega
    rw [hlen, List.range_succ_eq_map, List.map_cons, List.map_map]
    rfl
  · rw [if_pos (by omega)]
    have h1 : k ≤ (c :: r).length := by simp only [List.length_cons]; omega
    rw [processRun_windows k hk counts (c :: r) h1]
    have h3 : (c :: r).length + 1 - k = 1 := by simp only [List.length_cons]; omega
    rw [h3]
    unfold processRun
    rw [if_neg (by omega)]
    rfl
  · rw [if_neg (by omega)]
    unfold processRun
    rw [if_neg (by simp only [List.length_cons]; omega), if_neg (by omega)]

theorem naiveCount_cons (k : ℕ) (hk : 0 < k) (c : Char) (s : List Char) (j : ℕ) :
    naiveCount k (c :: s) j =
      (if k ≤ s.length + 1 ∧ dna_to_binary ((c :: s).take k) = some j then 1 else 0) +
        naiveCount k s j := by
  unfold naiveCount
  simp only [← List.countP_eq_length_filter]
  by_cases hks : k ≤ s.length + 1
  · have hlen : (c :: s).length + 1 - k = (s.length + 1 - k) + 1 := by
      simp only [List.length_cons]
      omega
    rw [hlen, List.range_succ_eq_map, List.countP_cons, List.countP_map]
    have hcp : List.countP
        ((fun p => decide (dna_to_binary (((c :: s).drop p).take k) = some j)) ∘ Nat.succ)
        (List.range (s.length + 1 - k)) =
        List.countP (fun p => decide (dna_to_binary ((s.drop p).take k) = some j))
        (List.range (s.length + 1 - k)) := rfl
    rw [hcp]
    by_cases hd : dna_to_binary ((c :: s).take k) = some j
    · have hC : k ≤ s.length + 1 ∧ dna_to_binary ((c :: s).take k) = some j := ⟨hks, hd⟩
      have hd0 : dna_to_binary (((c :: s).drop 0).take k) = some j := hd
      rw [if_pos hC, if_pos (decide_eq_true hd0)]
      omega
    · have hC : ¬(k ≤ s.length + 1 ∧ dna_to_binary ((c :: s).take k) = some j) :=
        fun h => hd h.2
      have hb : ¬ decide (dna_to_binary (((c :: s).drop 0).take k) = some j) = true :=
        fun h => hd (of_decide_eq_true h)
      rw [if_neg hC, if_neg hb]
      omega
  · have h1 : (c :: s).length + 1 - k = 0 := by simp only [List.length_cons]; omega
    have h2 : s.length + 1 - k = 0 := by omega
    rw [h1, h2, if_neg (fun h => hks h.1)]
    rfl

theorem splitRuns_head (s : List Char) : ∃ rs, splitRuns s = s.takeWhile isNuc :: rs := by
  induction s with
  | nil => exact ⟨[], rfl⟩
  | cons c rest ih =>
    by_cases h : isNuc c
    · obtain ⟨rs, hrs⟩ := ih
      refine ⟨rs, ?_⟩
      unfold splitRuns
      rw [if_pos h, hrs, List.takeWhile_cons, if_pos h]
    · refine ⟨splitRuns rest, ?_⟩
      conv_lhs => rw [splitRuns]
      rw [if_neg h, List.takeWhile_cons, if_neg h]

theorem take_all_valid_imp : ∀ (l : List Char) (m : ℕ),
    (∀ x ∈ l.take m, isNuc x) → l.take m = (l.takeWhile isNuc).take m := by
  intro l
  induction l with
  | nil => intro m _; simp
  | cons c t ih =>
    intro m hv
    cases m with
    | zero => simp
    | succ m' =>
      have hc : isNuc c := hv c (by rw [List.take_succ_cons]; exact List.mem_cons_self c _)
      rw [List.take_succ_cons, List.takeWhile_cons, if_pos hc, List.take_succ_cons,
        ih m' (fun x hx => hv x
          (by rw [List.take_succ_cons]; exact List.mem_cons_of_mem c hx))]

theorem fold_runs (k : ℕ) (hk : 0 < k) :
    ∀ (s : List Char) (counts : List ℕ), counts.length = 4 ^ k → ∀ j : ℕ,
    ((splitRuns s).foldl (processRun k) counts).getD j 0 =
      counts.getD j 0 + naiveCount k s j := by
  obtain ⟨m, rfl⟩ : ∃ m, k = m + 1 := ⟨k - 1, by omega⟩
  intro s
  induction s with
  | nil =>
    intro counts hc j
    have h0 : naiveCount (m + 1) [] j = 0 := by
      unfold naiveCount
      rw [List.length_nil, show 0 + 1 - (m + 1) = 0 from by omega]
      rfl
    rw [h0]
    show (processRun (m + 1) counts []).getD j 0 = counts.getD j 0 + 0
    rw [processRun_nil (m + 1) hk counts, Nat.add_zero]
  | cons c s' ih =>
    intro counts hc j
    by_cases hcv : isNuc c
    · obtain ⟨rs, hrs⟩ := splitRuns_head s'
      set r := s'.takeWhile isNuc with hr
      have hsp : splitRuns (c :: s') = (c :: r) :: rs := by
        unfold splitRuns
        rw [if_pos hcv, hrs]
      have hpre : r <+: s' := List.takeWhile_prefix isNuc
      have hrle : r.length ≤ s'.length := hpre.length_le
      have hequiv : (m + 1 ≤ s'.length + 1 ∧
            dna_to_binary ((c :: s').take (m + 1)) = some j) ↔
          (m + 1 ≤ r.length + 1 ∧ encodeN ((c :: r).take (m + 1)) = j) := by
        constructor
        · rintro ⟨h1, h2⟩
          rw [List.take_succ_cons] at h2
          have hval : ∀ x ∈ c :: s'.take m, isNuc x := by
            by_contra hall
            push_neg at hall
            obtain ⟨x, hx, hxv⟩ := hall
            rw [dna_to_binary_invalid _ ⟨x, hx, hxv⟩] at h2
            simp at h2
          have hvt : ∀ x ∈ s'.take m, isNuc x :=
            fun x hx => hval x (List.mem_cons_of_mem _ hx)
          have htake := take_all_valid_imp s' m hvt
          rw [← hr] at htake
          have hmr : m ≤ r.length := by
            have ha : (s'.take m).length = m := by
              rw [List.length_take]
              omega
            have hb : (r.take m).length = (s'.take m).length := by rw [htake]
            rw [List.length_take] at hb
            omega
          refine ⟨by omega, ?_⟩
          have hwin : (c :: r).take (m + 1) = c :: s'.take m := by
            rw [List.take_succ_cons, ← htake]
          rw [hwin]
          rw [dna_to_binary_of_valid (c :: s'.take m) hval] at h2
          exact Option.some.inj h2
        · rintro ⟨h1, h2⟩
          have h1' : m ≤ r.length := by omega
          obtain ⟨t, ht⟩ := hpre
          have htake : s'.take m = r.take m := by
            rw [← ht]
            exact List.take_append_of_le_length h1'
          refine ⟨by omega, ?_⟩
          rw [List.take_succ_cons, htake]
          have hval : ∀ x ∈ c :: r.take m, isNuc x := by
            intro x hx
            rcases List.mem_cons.mp hx with hxc | hxr
            · rw [hxc]; exact hcv
            · have hxw : x ∈ s'.takeWhile isNuc := by
                rw [← hr]
                exact List.mem_of_mem_take hxr
              exact List.mem_takeWhile_imp hxw
          rw [dna_to_binary_of_valid _ hval, ← List.take_succ_cons, h2]
      rw [hsp, List.foldl_cons, processRun_cons (m + 1) hk counts c r,
        ← List.foldl_cons, ← hrs]
      have hlen' : (if m + 1 ≤ r.length + 1 then
          incr counts (encodeN ((c :: r).take (m + 1))) else counts).length = 4 ^ (m + 1) := by
        split
        · rw [incr_length]; exact hc
        · exact hc
      rw [ih _ hlen' j]
      have hilt : encodeN ((c :: r).take (m + 1)) < counts.length := by
        rw [hc]
        have he := encodeN_lt ((c :: r).take (m + 1))
        have hwl : ((c :: r).take (m + 1)).length ≤ m + 1 := by
          rw [List.length_take]
          omega
        calc encodeN ((c :: r).take (m + 1)) < 4 ^ ((c :: r).take (m + 1)).length := he
          _ ≤ 4 ^ (m + 1) := Nat.pow_le_pow_right (by omega) hwl
      have hkey : (if m + 1 ≤ r.length + 1 then
            incr counts (encodeN ((c :: r).take (m + 1))) else counts).getD j 0 =
          counts.getD j 0 + (if m + 1 ≤ s'.length + 1 ∧
            dna_to_binary ((c :: s').take (m + 1)) = some j then 1 else 0) := by
        by_cases hC : m + 1 ≤ s'.length + 1 ∧
            dna_to_binary ((c :: s').take (m + 1)) = some j
        · obtain ⟨hC1, hC2⟩ := hequiv.mp hC
          rw [if_pos hC1, if_pos hC, incr_getD counts _ j hilt, if_pos hC2]
        · rw [if_neg hC]
          by_cases hC2 : m + 1 ≤ r.length + 1
          · have hne : encodeN ((c :: r).take (m + 1)) ≠ j :=
              fun he => hC (hequiv.mpr ⟨hC2, he⟩)
            rw [if_pos hC2, incr_getD counts _ j hilt, if_neg hne]
          · rw [if_neg hC2, Nat.add_zero]
      rw [hkey, naiveCount_cons (m + 1) hk c s' j]
      omega
    · have hsp : splitRuns (c :: s') = [] :: splitRuns s' := by
        conv_lhs => rw [splitRuns]
        rw [if_neg hcv]
      have hnone : dna_to_binary ((c :: s').take (m + 1)) = none := by
        apply dna_to_binary_invalid
        refine ⟨c, ?_, hcv⟩
        rw [List.take_succ_cons]
        exact List.mem_cons_self c _
      have hnc : naiveCount (m + 1) (c :: s') j = naiveCount (m + 1) s' j := by
        rw [naiveCount_cons (m + 1) hk c s' j, if_neg, Nat.zero_add]
        rintro ⟨h1, h2⟩
        rw [hnone] at h2
        simp at h2
      rw [hsp, List.foldl_cons, processRun_nil (m + 1) hk counts, ih counts hc j, hnc]

/-- C4 (spec §3, `from_fasta`): counting a FASTA record with the incremental
first-window-then-slide loops of `Profile.from_fasta` yields, for every
k-mer index `j`, exactly the number of length-`k` windows of the sequence
that the codec encodes to `j` — i.e. the naive sliding-window count in
which windows containing a non-ACGT character are skipped. -/
theorem C4_from_fasta_naive (k : ℕ) (hk : 0 < k) (s : List Char) (j : ℕ) :
    (from_fasta k [s]).getD j 0 = naiveCount k s j := by
  unfold from_fasta
  rw [List.foldl_cons, List.foldl_nil,
    fold_runs k hk s (List.replicate (4 ^ k) 0) (List.length_replicate _ _) j]
  have h0 : (List.replicate (4 ^ k) (0 : ℕ)).getD j 0 = 0 := by
    rw [List.getD_eq_getElem?_getD, List.getElem?_replicate]
    split
    · rfl
    · rfl
  rw [h0, Nat.zero_add]

theorem C4_from_fasta_naive_witness :
    0 < 2 ∧ (from_fasta 2 [['A', 'C', 'G', 'T', 'N', 'C', 'A']]).getD 4 0 =
      naiveCount 2 ['A', 'C', 'G', 'T', 'N', 'C', 'A'] 4 ∧
      naiveCount 2 ['A', 'C', 'G', 'T', 'N', 'C', 'A'] 4 = 1 :=
  ⟨by decide,
   C4_from_fasta_naive 2 (by decide) ['A', 'C', 'G', 'T', 'N', 'C', 'A'] 4,
   by decide⟩

end KPal

